import Mathlib

/-!
# minimu9-ahrs: orientation fusion, verified over an exact scalar field

A shallow embedding of `src/minimu9-ahrs.cpp`.  The program computes in
single-precision floats; here every scalar is an element of a linearly
ordered field `α` that carries the two C math-library functions the program
calls (`sqrt`, through the vector and quaternion norms, and `atan2`).  The
definitions are generic in `α` and computable; the theorems are stated for
`α = ℝ` with `Real.sqrt` and the principal argument as `atan2`, so they are
statements about the exact arithmetic the floats approximate.

The unqualified call `abs(acceleration.norm() - 1)` is read as the floating
point absolute value (the overload picked once `<cmath>` is visible, which
the linear-algebra headers pull in), not as the integer `abs` of `<stdlib.h>`.
-/

namespace MinIMU9

/-- The two C math-library functions the program relies on. -/
class CMath (α : Type) where
  /-- Square root, `sqrtf`. -/
  sqrt : α → α
  /-- Two-argument arctangent `atan2 y x`. -/
  atan2 : α → α → α

/-- Modelled from the spec: `vector.h` (not under src/) makes `vector` a
fixed-size 3-vector of scalars ("Vector3: 3 real components"). -/
@[ext] structure vector (α : Type) where
  x : α
  y : α
  z : α
deriving DecidableEq, Repr

/-- Modelled from the spec: `vector.h` (not under src/) makes `matrix` a 3×3
matrix of scalars, "addressable by row or column as a Vector3 view;
constructible from three row vectors".  It is stored here as its rows. -/
@[ext] structure matrix (α : Type) where
  r0 : vector α
  r1 : vector α
  r2 : vector α
deriving DecidableEq, Repr

/-- Modelled from the spec: `vector.h` (not under src/) makes `quaternion` a
quaternion `(w, x, y, z)` of scalars. -/
@[ext] structure quaternion (α : Type) where
  w : α
  x : α
  y : α
  z : α
deriving DecidableEq, Repr

section Algebra

variable {α : Type} [LinearOrderedField α] [CMath α]

/-- Modelled from the spec: `vector(0, 0, 0)`, the zero vector of `vector.h`. -/
def vector.zero : vector α := ⟨0, 0, 0⟩

/-- Modelled from the spec: component-wise sum, `a + b` on `vector.h` vectors. -/
def vector.add (a b : vector α) : vector α := ⟨a.x + b.x, a.y + b.y, a.z + b.z⟩

/-- Modelled from the spec: `v * s`, a `vector.h` vector times a scalar. -/
def vector.scale (v : vector α) (s : α) : vector α := ⟨v.x * s, v.y * s, v.z * s⟩

/-- Modelled from the spec: `a.dot(b)` of the Rotation Algebra (`vector.h`). -/
def vector.dot (a b : vector α) : α := a.x * b.x + a.y * b.y + a.z * b.z

/-- Modelled from the spec: `a.cross(b)` of the Rotation Algebra (`vector.h`). -/
def vector.cross (a b : vector α) : vector α :=
  ⟨a.y * b.z - a.z * b.y, a.z * b.x - a.x * b.z, a.x * b.y - a.y * b.x⟩

/-- Modelled from the spec: `v.norm()`, the Euclidean norm (`vector.h`). -/
def vector.norm (v : vector α) : α := CMath.sqrt (v.dot v)

/-- Modelled from the spec: `v.normalize()` of `vector.h`, "divide by norm";
the in-place update is returned as the new value. -/
def vector.normalize (v : vector α) : vector α :=
  ⟨v.x / v.norm, v.y / v.norm, v.z / v.norm⟩

/-- Modelled from the spec: `m.row(i)` of `vector.h` matrices. -/
def matrix.row (m : matrix α) : Fin 3 → vector α
  | 0 => m.r0
  | 1 => m.r1
  | 2 => m.r2

/-- Modelled from the spec: `m.col(j)` of `vector.h` matrices. -/
def matrix.col (m : matrix α) : Fin 3 → vector α
  | 0 => ⟨m.r0.x, m.r1.x, m.r2.x⟩
  | 1 => ⟨m.r0.y, m.r1.y, m.r2.y⟩
  | 2 => ⟨m.r0.z, m.r1.z, m.r2.z⟩

/-- Modelled from the spec: `quaternion::Identity()` of `vector.h`. -/
def quaternion.Identity : quaternion α := ⟨1, 0, 0, 0⟩

/-- Modelled from the spec: the quaternion product of `vector.h`, "standard
Hamilton multiplication". -/
def quaternion.mul (a b : quaternion α) : quaternion α :=
  ⟨a.w * b.w - a.x * b.x - a.y * b.y - a.z * b.z,
   a.w * b.x + a.x * b.w + a.y * b.z - a.z * b.y,
   a.w * b.y + a.y * b.w + a.z * b.x - a.x * b.z,
   a.w * b.z + a.z * b.w + a.x * b.y - a.y * b.x⟩

/-- Squared magnitude of a quaternion. -/
def quaternion.squaredNorm (q : quaternion α) : α :=
  q.w * q.w + q.x * q.x + q.y * q.y + q.z * q.z

/-- Modelled from the spec: the magnitude `‖q‖` of a `vector.h` quaternion. -/
def quaternion.norm (q : quaternion α) : α := CMath.sqrt q.squaredNorm

/-- Modelled from the spec: `q.normalize()` of `vector.h`: divide the four
coefficients by the magnitude; the in-place update is returned as the new
value. -/
def quaternion.normalize (q : quaternion α) : quaternion α :=
  ⟨q.w / q.norm, q.x / q.norm, q.y / q.norm, q.z / q.norm⟩

/-- Modelled from the spec: `q.toRotationMatrix()` of `vector.h`, "the standard
quaternion-to-matrix formula" (no division by the magnitude: the quaternion
is taken to be of unit length). -/
def quaternion.toRotationMatrix (q : quaternion α) : matrix α :=
  let tx := 2 * q.x
  let ty := 2 * q.y
  let tz := 2 * q.z
  let twx := tx * q.w
  let twy := ty * q.w
  let twz := tz * q.w
  let txx := tx * q.x
  let txy := ty * q.x
  let txz := tz * q.x
  let tyy := ty * q.y
  let tyz := tz * q.y
  let tzz := tz * q.z
  ⟨⟨1 - (tyy + tzz), txy - twz, txz + twy⟩,
   ⟨txy + twz, 1 - (txx + tzz), tyz - twx⟩,
   ⟨txz - twy, tyz + twx, 1 - (txx + tyy)⟩⟩

/-- Modelled from the spec: the conversion of a rotation matrix "to a
quaternion" that `vector.h` supplies for the assignment
`rotation = rotationFromCompass(...)`.  The linear-algebra library behind
`vector.h` branches on the trace and otherwise on the largest diagonal entry
(Shoemake's method); that procedure is followed here. -/
def quaternion.ofMatrix (m : matrix α) : quaternion α :=
  let t := m.r0.x + m.r1.y + m.r2.z
  if 0 < t then
    let s := CMath.sqrt (t + 1)
    let h := (1 / 2 : α) / s
    ⟨(1 / 2) * s, (m.r2.y - m.r1.z) * h, (m.r0.z - m.r2.x) * h, (m.r1.x - m.r0.y) * h⟩
  else if m.r1.y ≤ m.r0.x ∧ m.r2.z ≤ m.r0.x then
    -- i = 0, j = 1, k = 2
    let s := CMath.sqrt (m.r0.x - m.r1.y - m.r2.z + 1)
    let h := (1 / 2 : α) / s
    ⟨(m.r2.y - m.r1.z) * h, (1 / 2) * s, (m.r1.x + m.r0.y) * h, (m.r2.x + m.r0.z) * h⟩
  else if m.r0.x < m.r1.y ∧ m.r2.z ≤ m.r1.y then
    -- i = 1, j = 2, k = 0
    let s := CMath.sqrt (m.r1.y - m.r2.z - m.r0.x + 1)
    let h := (1 / 2 : α) / s
    ⟨(m.r0.z - m.r2.x) * h, (m.r0.y + m.r1.x) * h, (1 / 2) * s, (m.r2.y + m.r1.z) * h⟩
  else
    -- i = 2, j = 0, k = 1
    let s := CMath.sqrt (m.r2.z - m.r0.x - m.r1.y + 1)
    let h := (1 / 2 : α) / s
    ⟨(m.r1.x - m.r0.y) * h, (m.r0.z + m.r2.x) * h, (m.r1.z + m.r2.y) * h, (1 / 2) * s⟩

end Algebra

section Program

variable {α : Type} [LinearOrderedField α] [CMath α]

/-- `rotationFromCompass` (source lines 42-58): rows east, north, up, each
normalized. -/
def rotationFromCompass (acceleration magnetic_field : vector α) : matrix α :=
  let up := acceleration
  let magnetic_east := magnetic_field.cross up
  let east := magnetic_east
  let north := up.cross east
  ⟨east.normalize, north.normalize, up.normalize⟩

/-- `heading` (source lines 60-70): normalize the first column, zero its
third component, return `atan2(x(1), x(0))`. -/
def heading (rotation : matrix α) : α :=
  let x := (rotation.col 0).normalize
  let x : vector α := ⟨x.x, x.y, 0⟩
  CMath.atan2 x.y x.x

/-- `fuse_compass_only` (source lines 76-81): the new orientation is the
compass matrix converted to a quaternion; the old one, `dt` and the angular
velocity are not read. -/
def fuse_compass_only (_rotation : quaternion α) (_dt : α) (_angular_velocity : vector α)
    (acceleration magnetic_field : vector α) : quaternion α :=
  quaternion.ofMatrix (rotationFromCompass acceleration magnetic_field)

/-- `rotate` (source lines 85-91): multiply on the right by the first order
quaternion `(1, w·dt/2)` and renormalize. -/
def rotate (rotation : quaternion α) (w : vector α) (dt : α) : quaternion α :=
  let q : quaternion α := ⟨1, w.x * dt / 2, w.y * dt / 2, w.z * dt / 2⟩
  (rotation.mul q).normalize

/-- `fuse_gyro_only` (source lines 93-97). -/
def fuse_gyro_only (rotation : quaternion α) (dt : α) (angular_velocity : vector α)
    (_acceleration _magnetic_field : vector α) : quaternion α :=
  rotate rotation angular_velocity dt

/-- The correction vector `fuse_default` computes (source lines 102-120). -/
def fuse_default_correction (rotation : quaternion α) (acceleration magnetic_field : vector α) :
    vector α :=
  if |acceleration.norm - 1| ≤ 3 / 10 then
    let correction_strength : α := 1
    let rotationCompass := rotationFromCompass acceleration magnetic_field
    let rotationMatrix := rotation.toRotationMatrix
    vector.scale
      (((rotationCompass.row 0).cross (rotationMatrix.row 0)).add
        ((rotationCompass.row 1).cross (rotationMatrix.row 1)) |>.add
        ((rotationCompass.row 2).cross (rotationMatrix.row 2)))
      correction_strength
  else
    vector.zero

/-- `fuse_default` (source lines 99-123). -/
def fuse_default (rotation : quaternion α) (dt : α) (angular_velocity : vector α)
    (acceleration magnetic_field : vector α) : quaternion α :=
  rotate rotation (angular_velocity.add (fuse_default_correction rotation acceleration magnetic_field)) dt

/-- Two's-complement value of an integer stored in a 32-bit `int`. -/
def wrap32 (x : Int) : Int := (x + 2 ^ 31) % 2 ^ 32 - 2 ^ 31

/-- `millis` (source lines 12-17): seconds times 1000 plus microseconds over
1000, returned through an `int`.  `tv_usec` is between 0 and 999999, where
the integer division is the usual one. -/
def millis (tv_sec tv_usec : Int) : Int := wrap32 (tv_sec * 1000 + tv_usec / 1000)

/-- The type `fuse_function` (source lines 72-73), with the updated
`rotation` returned. -/
abbrev fuse_function (α : Type) : Type :=
  quaternion α → α → vector α → vector α → vector α → quaternion α

/-- The three vectors read from the sensors in one iteration (source lines
143-145). -/
structure Sample (α : Type) where
  angular_velocity : vector α
  acceleration : vector α
  magnetic_field : vector α

/-- The calls with an outside effect made by `ahrs`, in program order. -/
inductive Event (α : Type) where
  | loadCalibration
  | enable
  | measureOffsets
  | millis (value : Int)
  | readGyro
  | readAcc
  | readMag
  | fuse
  | print (r : matrix α) (acceleration magnetic_field : vector α)
  | usleep

/-- Variables of `ahrs` that live across iterations, with the number of
`millis()` calls made so far (`tick`) and of samples read so far. -/
structure AhrsState (α : Type) where
  rotation : quaternion α
  start : Int
  tick : Nat
  sample : Nat

/-- How control leaves one iteration of the `while(1)` loop of `ahrs`. -/
inductive Status where
  | running
  | threw (what : String)
  | pacing
deriving DecidableEq, Repr

/-- Result of running one iteration: the calls made, the variables when
control leaves the iteration, and how it leaves. -/
structure Step (α : Type) where
  trace : List (Event α)
  state : AhrsState α
  status : Status

/-- `dt` as computed at source line 140: the `int` difference of the two
`int` readings (wrapping on overflow), divided by 1000. -/
def ahrs_dt (start last_start : Int) : α := ((wrap32 (start - last_start) : Int) : α) / 1000

/-- The pacing loop (source lines 159-162), `while(millis() - start < 20)
usleep(1000)`: `clock k` is the value returned by the `k`-th call of
`millis()`, `tick` the index of the next call.  Returns the number of
`usleep` calls made before the loop is left, or `none` when `fuel` checks of
the condition did not leave it. -/
def pace (clock : Nat → Int) (start : Int) : Nat → Nat → Option Nat
  | 0, _ => none
  | fuel + 1, tick =>
    if wrap32 (clock tick - start) < 20 then
      (pace clock start fuel (tick + 1)).map (· + 1)
    else
      some 0

/-- Calls made by the pacing loop when it is left after `sleeps` waits. -/
def pace_trace (clock : Nat → Int) (tick : Nat) : Nat → List (Event α)
  | 0 => [Event.millis (clock tick)]
  | sleeps + 1 => Event.millis (clock tick) :: Event.usleep :: pace_trace clock (tick + 1) sleeps

/-- One iteration of the `while(1)` loop of `ahrs` (source lines 136-163).
`clock k` is the value returned by the `k`-th call of `millis()` and `imu k`
the `k`-th sample the sensors deliver (the three reads are taken to return;
a failing device is outside this model). -/
def ahrs_iteration (fuse_func : fuse_function α) (clock : Nat → Int) (imu : Nat → Sample α)
    (fuel : Nat) (st : AhrsState α) : Step α :=
  let last_start := st.start
  let start := clock st.tick
  let dt : α := ahrs_dt start last_start
  if dt < 0 then
    ⟨[Event.millis start], ⟨st.rotation, start, st.tick + 1, st.sample⟩,
      Status.threw "time went backwards"⟩
  else
    let s := imu st.sample
    let rotation := fuse_func st.rotation dt s.angular_velocity s.acceleration s.magnetic_field
    let r := rotation.toRotationMatrix
    let body : List (Event α) :=
      [Event.millis start, Event.readGyro, Event.readAcc, Event.readMag, Event.fuse,
        Event.print r s.acceleration s.magnetic_field]
    match pace clock start fuel (st.tick + 1) with
    | none => ⟨body, ⟨rotation, start, st.tick + 1, st.sample + 1⟩, Status.pacing⟩
    | some sleeps =>
      ⟨body ++ pace_trace clock (st.tick + 1) sleeps,
        ⟨rotation, start, st.tick + 1 + sleeps + 1, st.sample + 1⟩, Status.running⟩

/-- The part of `ahrs` before the loop (source lines 127-135). -/
def ahrs_setup (clock : Nat → Int) : Step α :=
  ⟨[Event.loadCalibration, Event.enable, Event.measureOffsets, Event.millis (clock 0)],
    ⟨quaternion.Identity, clock 0, 1, 0⟩, Status.running⟩

/-- The strategies `main` can hand to `ahrs`. -/
inductive Strategy where
  | default
  | gyro_only
  | compass_only
deriving DecidableEq, Repr

/-- The function each strategy stands for. -/
def Strategy.fuse : Strategy → fuse_function α
  | Strategy.default => fuse_default
  | Strategy.gyro_only => fuse_gyro_only
  | Strategy.compass_only => fuse_compass_only

/-- Modelled from the spec: the device driver (`MinIMU9.h`, not under src/)
as `main` sees it; "any call may fail with DeviceError".  `opens`: the
constructor on `/dev/i2c-0` returns; `connected`: `checkConnection()`
returns; `loop_fails`: a call made inside the chosen loop throws at some
point. -/
structure Device where
  opens : Bool
  connected : Bool
  loop_fails : Bool
deriving DecidableEq, Repr

/-- What `main` does, in program order. -/
inductive MainEvent where
  | construct
  | checkConnection
  | streamRawValues
  | ahrs (strategy : Strategy)
  | stderr_unknown_action (action : String)
  | stderr_error
deriving DecidableEq, Repr

/-- The two loops never return: `main` leaves them only through an
exception, with status 1; otherwise it has no exit status. -/
def main_loop (dev : Device) (before : List MainEvent) (loop : MainEvent) :
    List MainEvent × Option Nat :=
  if dev.loop_fails then (before ++ [loop, MainEvent.stderr_error], some 1)
  else (before ++ [loop], none)

/-- `main` (source lines 166-212).  `args` is `argv` without the program
name; the result is the calls made and the exit status (`none`: the program
runs until it is killed). -/
def main (args : List String) (dev : Device) : List MainEvent × Option Nat :=
  if !dev.opens then ([MainEvent.construct, MainEvent.stderr_error], some 1)
  else if !dev.connected then
    ([MainEvent.construct, MainEvent.checkConnection, MainEvent.stderr_error], some 1)
  else
    let before := [MainEvent.construct, MainEvent.checkConnection]
    match args with
    | action :: _ =>
      if action = "raw" then main_loop dev before MainEvent.streamRawValues
      else if action = "gyro-only" then main_loop dev before (MainEvent.ahrs Strategy.gyro_only)
      else if action = "compass-only" then
        main_loop dev before (MainEvent.ahrs Strategy.compass_only)
      else (before ++ [MainEvent.stderr_unknown_action action], some 3)
    | [] => main_loop dev before (MainEvent.ahrs Strategy.default)

end Program

/-- Exact real arithmetic: `sqrt` is the real square root and `atan2 y x` is
the principal argument of `x + y·i`. -/
noncomputable instance : CMath ℝ where
  sqrt := Real.sqrt
  atan2 := fun y x => Complex.arg ⟨x, y⟩

/-! ## Predicates used in the statements -/

/-- A proper rotation: orthonormal rows, and right-handed
(`row 0 × row 1 = row 2`). -/
def matrix.IsProperRotation (m : matrix ℝ) : Prop :=
  m.r0.dot m.r0 = 1 ∧ m.r1.dot m.r1 = 1 ∧ m.r2.dot m.r2 = 1 ∧
  m.r0.dot m.r1 = 0 ∧ m.r0.dot m.r2 = 0 ∧ m.r1.dot m.r2 = 0 ∧
  m.r0.cross m.r1 = m.r2

/-- Non-degenerate sensor pair: acceleration and magnetic field both non-zero
and not parallel (their cross product does not vanish). -/
def NonDegenerate (a m : vector ℝ) : Prop :=
  a ≠ vector.zero ∧ m ≠ vector.zero ∧ m.cross a ≠ vector.zero

/-- The heading computation as the specification words it: take the first
column, zero its vertical component, normalize the remainder, return
`atan2(y, x)`. -/
def heading_spec {α : Type} [LinearOrderedField α] [CMath α] (rotation : matrix α) : α :=
  let c := rotation.col 0
  let horizontal : vector α := ⟨c.x, c.y, 0⟩
  let n := horizontal.normalize
  CMath.atan2 n.y n.x

/-- Determinant of a 3×3 matrix, as the triple product of its rows. -/
def matrix.determinant {α : Type} [LinearOrderedField α] (m : matrix α) : α :=
  (m.row 0).dot ((m.row 1).cross (m.row 2))

/-- Alignment of two frames: the sum of the dot products of corresponding
rows. -/
def alignment {α : Type} [LinearOrderedField α] (c r : matrix α) : α :=
  (c.row 0).dot (r.row 0) + (c.row 1).dot (r.row 1) + (c.row 2).dot (r.row 2)

/-! ## Basic facts about the algebra over `ℝ` -/

@[simp] theorem sqrt_real (x : ℝ) : CMath.sqrt x = Real.sqrt x := rfl

@[simp] theorem atan2_real (y x : ℝ) : CMath.atan2 y x = Complex.arg ⟨x, y⟩ := rfl

section Generic

variable {α : Type} [LinearOrderedField α]

theorem vector.add_zero_right (v : vector α) : v.add vector.zero = v := by
  ext <;> simp [vector.add, vector.zero]

theorem vector.scale_one (v : vector α) : v.scale 1 = v := by
  ext <;> simp [vector.scale]

theorem vector.cross_self (v : vector α) : v.cross v = vector.zero := by
  ext <;> simp [vector.cross, vector.zero] <;> ring

theorem quaternion.mul_one_right (q : quaternion α) : q.mul ⟨1, 0, 0, 0⟩ = q := by
  ext <;> simp [quaternion.mul]

end Generic

/-! ## The default step and its plausibility gate -/

/-- C1: when the gate `|‖a‖ − 1| ≤ 0.3` passes (boundary included), the default
step is the gyro-only integration `rotate` applied to the angular velocity
plus the sum of the three row-wise cross products of the compass frame with
the current frame, with gain exactly 1. -/
theorem fuse_default_gate_pass (q : quaternion ℝ) (dt : ℝ) (w a m : vector ℝ)
    (hgate : |a.norm - 1| ≤ 3 / 10) :
    fuse_default q dt w a m =
      rotate q
        (w.add
          ((((rotationFromCompass a m).row 0).cross (q.toRotationMatrix.row 0)).add
            (((rotationFromCompass a m).row 1).cross (q.toRotationMatrix.row 1)) |>.add
            (((rotationFromCompass a m).row 2).cross (q.toRotationMatrix.row 2))))
        dt := by
  unfold fuse_default fuse_default_correction
  rw [if_pos hgate]
  simp only [vector.scale_one]

/-- At the lower edge of the window, `‖a‖ = 0.7`, the gate still passes. -/
theorem fuse_default_gate_pass_witness :
    |(⟨0, 0, 7 / 10⟩ : vector ℝ).norm - 1| ≤ 3 / 10 ∧
    fuse_default (⟨1, 0, 0, 0⟩ : quaternion ℝ) (1 / 50) ⟨0, 0, 1⟩ ⟨0, 0, 7 / 10⟩ ⟨0, 1, 0⟩ =
      rotate ⟨1, 0, 0, 0⟩
        ((⟨0, 0, 1⟩ : vector ℝ).add
          ((((rotationFromCompass (⟨0, 0, 7 / 10⟩ : vector ℝ) ⟨0, 1, 0⟩).row 0).cross
              ((⟨1, 0, 0, 0⟩ : quaternion ℝ).toRotationMatrix.row 0)).add
            (((rotationFromCompass (⟨0, 0, 7 / 10⟩ : vector ℝ) ⟨0, 1, 0⟩).row 1).cross
              ((⟨1, 0, 0, 0⟩ : quaternion ℝ).toRotationMatrix.row 1)) |>.add
            (((rotationFromCompass (⟨0, 0, 7 / 10⟩ : vector ℝ) ⟨0, 1, 0⟩).row 2).cross
              ((⟨1, 0, 0, 0⟩ : quaternion ℝ).toRotationMatrix.row 2))))
        (1 / 50) := by
  have hn : (⟨0, 0, 7 / 10⟩ : vector ℝ).norm = 7 / 10 := by
    have h : (⟨0, 0, 7 / 10⟩ : vector ℝ).dot ⟨0, 0, 7 / 10⟩ = (7 / 10) ^ 2 := by
      simp [vector.dot]; ring
    rw [vector.norm, sqrt_real, h, Real.sqrt_sq (by norm_num)]
  have hg : |(⟨0, 0, 7 / 10⟩ : vector ℝ).norm - 1| ≤ 3 / 10 := by
    rw [hn]; norm_num [abs_le]
  exact ⟨hg, fuse_default_gate_pass _ _ _ _ _ hg⟩

/-- C2: when the gate fails (`|‖a‖ − 1| > 0.3`), the default step is the
gyro-only step, and its result is the same for every other acceleration and
magnetic field that fail the gate. -/
theorem fuse_default_gate_fail (q : quaternion ℝ) (dt : ℝ) (w a m : vector ℝ)
    (hgate : 3 / 10 < |a.norm - 1|) :
    fuse_default q dt w a m = fuse_gyro_only q dt w a m ∧
    ∀ a2 m2 : vector ℝ, 3 / 10 < |a2.norm - 1| →
      fuse_default q dt w a2 m2 = fuse_default q dt w a m := by
  have key : ∀ a2 m2 : vector ℝ, 3 / 10 < |a2.norm - 1| →
      fuse_default q dt w a2 m2 = rotate q w dt := by
    intro a2 m2 h
    unfold fuse_default fuse_default_correction
    rw [if_neg (not_le.mpr h), vector.add_zero_right]
  refine ⟨key a m hgate, fun a2 m2 h => ?_⟩
  rw [key a2 m2 h, key a m hgate]

/-- With `‖a‖ = 2` the gate fails. -/
theorem fuse_default_gate_fail_witness :
    3 / 10 < |(⟨0, 0, 2⟩ : vector ℝ).norm - 1| ∧
    fuse_default (⟨1, 0, 0, 0⟩ : quaternion ℝ) (1 / 50) ⟨0, 0, 1⟩ ⟨0, 0, 2⟩ ⟨0, 1, 0⟩ =
      fuse_gyro_only ⟨1, 0, 0, 0⟩ (1 / 50) ⟨0, 0, 1⟩ ⟨0, 0, 2⟩ ⟨0, 1, 0⟩ := by
  have hn : (⟨0, 0, 2⟩ : vector ℝ).norm = 2 := by
    have h : (⟨0, 0, 2⟩ : vector ℝ).dot ⟨0, 0, 2⟩ = 2 ^ 2 := by
      simp [vector.dot]; ring
    rw [vector.norm, sqrt_real, h, Real.sqrt_sq (by norm_num)]
  have hg : 3 / 10 < |(⟨0, 0, 2⟩ : vector ℝ).norm - 1| := by
    rw [hn]; norm_num
  exact ⟨hg, (fuse_default_gate_fail _ _ _ _ _ hg).1⟩

theorem identity_norm : (⟨1, 0, 0, 0⟩ : quaternion ℝ).norm = 1 := by
  simp [quaternion.norm, quaternion.squaredNorm]

/-- C5: a gyro-only step with zero angular velocity returns `q / ‖q‖` for
every `q`, every `dt` and every acceleration and magnetic field; when `q` has
unit magnitude (and `dt ≥ 0`) it returns `q` itself. -/
theorem fuse_gyro_only_zero_rate (q : quaternion ℝ) (dt : ℝ) (a m : vector ℝ) :
    fuse_gyro_only q dt vector.zero a m = q.normalize ∧
    (q.norm = 1 → 0 ≤ dt → fuse_gyro_only q dt vector.zero a m = q) := by
  have h : fuse_gyro_only q dt vector.zero a m = q.normalize := by
    simp [fuse_gyro_only, rotate, vector.zero, quaternion.mul_one_right]
  refine ⟨h, fun hq _ => ?_⟩
  rw [h]
  ext <;> simp [quaternion.normalize, hq]

/-- The identity orientation is kept by a zero-rate step of 20 ms. -/
theorem fuse_gyro_only_zero_rate_witness :
    (⟨1, 0, 0, 0⟩ : quaternion ℝ).norm = 1 ∧ (0 : ℝ) ≤ 1 / 50 ∧
    fuse_gyro_only (⟨1, 0, 0, 0⟩ : quaternion ℝ) (1 / 50) vector.zero ⟨0, 0, 1⟩ ⟨0, 1, 0⟩ =
      ⟨1, 0, 0, 0⟩ :=
  ⟨identity_norm, by norm_num,
    (fuse_gyro_only_zero_rate ⟨1, 0, 0, 0⟩ (1 / 50) ⟨0, 0, 1⟩ ⟨0, 1, 0⟩).2 identity_norm
      (by norm_num)⟩

/-- C6: when the gate passes and the compass frame equals the current
orientation frame, the correction vector of the default step is zero and the
default step equals the gyro-only step. -/
theorem fuse_default_aligned (q : quaternion ℝ) (dt : ℝ) (w a m : vector ℝ)
    (hgate : |a.norm - 1| ≤ 3 / 10)
    (hframe : rotationFromCompass a m = q.toRotationMatrix) :
    fuse_default_correction q a m = vector.zero ∧
    fuse_default q dt w a m = fuse_gyro_only q dt w a m := by
  have hc : fuse_default_correction q a m = vector.zero := by
    unfold fuse_default_correction
    rw [if_pos hgate]
    simp only [hframe, vector.cross_self, vector.add_zero_right, vector.scale_one]
  refine ⟨hc, ?_⟩
  unfold fuse_default fuse_gyro_only
  rw [hc, vector.add_zero_right]

theorem unit_z_norm : (⟨0, 0, 1⟩ : vector ℝ).norm = 1 := by
  simp [vector.norm, vector.dot]

theorem compass_level_north :
    rotationFromCompass (⟨0, 0, 1⟩ : vector ℝ) ⟨0, 1, 0⟩ = ⟨⟨1, 0, 0⟩, ⟨0, 1, 0⟩, ⟨0, 0, 1⟩⟩ := by
  simp [rotationFromCompass, vector.normalize, vector.cross, vector.norm, vector.dot]

theorem identity_toRotationMatrix :
    (⟨1, 0, 0, 0⟩ : quaternion ℝ).toRotationMatrix = ⟨⟨1, 0, 0⟩, ⟨0, 1, 0⟩, ⟨0, 0, 1⟩⟩ := by
  simp [quaternion.toRotationMatrix]

/-- Level board facing east: acceleration `(0,0,1)` of norm 1, field
`(0,1,0)`, orientation the identity. -/
theorem fuse_default_aligned_witness :
    |(⟨0, 0, 1⟩ : vector ℝ).norm - 1| ≤ 3 / 10 ∧
    rotationFromCompass (⟨0, 0, 1⟩ : vector ℝ) ⟨0, 1, 0⟩ =
      (⟨1, 0, 0, 0⟩ : quaternion ℝ).toRotationMatrix ∧
    fuse_default_correction (⟨1, 0, 0, 0⟩ : quaternion ℝ) ⟨0, 0, 1⟩ ⟨0, 1, 0⟩ = vector.zero ∧
    fuse_default (⟨1, 0, 0, 0⟩ : quaternion ℝ) (1 / 50) ⟨1, 2, 3⟩ ⟨0, 0, 1⟩ ⟨0, 1, 0⟩ =
      fuse_gyro_only ⟨1, 0, 0, 0⟩ (1 / 50) ⟨1, 2, 3⟩ ⟨0, 0, 1⟩ ⟨0, 1, 0⟩ := by
  have hg : |(⟨0, 0, 1⟩ : vector ℝ).norm - 1| ≤ 3 / 10 := by
    rw [unit_z_norm]; norm_num
  have hf : rotationFromCompass (⟨0, 0, 1⟩ : vector ℝ) ⟨0, 1, 0⟩ =
      (⟨1, 0, 0, 0⟩ : quaternion ℝ).toRotationMatrix := by
    rw [compass_level_north, identity_toRotationMatrix]
  exact ⟨hg, hf, fuse_default_aligned ⟨1, 0, 0, 0⟩ (1 / 50) ⟨1, 2, 3⟩ ⟨0, 0, 1⟩ ⟨0, 1, 0⟩ hg hf⟩

/-! ## The compass frame -/

theorem vector.dot_self_nonneg (v : vector ℝ) : 0 ≤ v.dot v := by
  unfold vector.dot
  nlinarith [mul_self_nonneg v.x, mul_self_nonneg v.y, mul_self_nonneg v.z]

theorem vector.dot_self_pos {v : vector ℝ} (hv : v ≠ vector.zero) : 0 < v.dot v := by
  rcases lt_or_eq_of_le v.dot_self_nonneg with h | h
  · exact h
  · exfalso
    apply hv
    unfold vector.dot at h
    have hx : v.x = 0 := by nlinarith [mul_self_nonneg v.x, mul_self_nonneg v.y, mul_self_nonneg v.z]
    have hy : v.y = 0 := by nlinarith [mul_self_nonneg v.x, mul_self_nonneg v.y, mul_self_nonneg v.z]
    have hz : v.z = 0 := by nlinarith [mul_self_nonneg v.x, mul_self_nonneg v.y, mul_self_nonneg v.z]
    ext <;> simp [vector.zero, hx, hy, hz]

theorem vector.norm_mul_self (v : vector ℝ) : v.norm * v.norm = v.dot v := by
  rw [vector.norm, sqrt_real]
  exact Real.mul_self_sqrt v.dot_self_nonneg

theorem vector.norm_pos {v : vector ℝ} (hv : v ≠ vector.zero) : 0 < v.norm := by
  rw [vector.norm, sqrt_real]
  exact Real.sqrt_pos.mpr (vector.dot_self_pos hv)

theorem vector.dot_normalize (u v : vector ℝ) :
    u.normalize.dot v.normalize = u.dot v / (u.norm * v.norm) := by
  simp only [vector.normalize, vector.dot]
  ring

theorem vector.norm_normalize {v : vector ℝ} (hv : v ≠ vector.zero) : v.normalize.norm = 1 := by
  have hp := vector.norm_pos hv
  have h : v.normalize.dot v.normalize = 1 := by
    rw [vector.dot_normalize, vector.norm_mul_self]
    exact div_self (vector.dot_self_pos hv).ne'
  rw [vector.norm, sqrt_real, h, Real.sqrt_one]

theorem vector.dot_cross_left (a b : vector ℝ) : (a.cross b).dot a = 0 := by
  simp only [vector.cross, vector.dot]; ring

theorem vector.dot_cross_right (a b : vector ℝ) : (a.cross b).dot b = 0 := by
  simp only [vector.cross, vector.dot]; ring

theorem vector.dot_comm (a b : vector ℝ) : a.dot b = b.dot a := by
  simp only [vector.dot]; ring

/-- Lagrange: `‖a × b‖² = ‖a‖²‖b‖² − (a·b)²`. -/
theorem vector.cross_dot_self (a b : vector ℝ) :
    (a.cross b).dot (a.cross b) = a.dot a * b.dot b - a.dot b * a.dot b := by
  simp only [vector.cross, vector.dot]; ring

/-- The north vector `up × (field × up)` is non-zero for non-parallel inputs. -/
theorem north_ne_zero {a m : vector ℝ} (hpar : m.cross a ≠ vector.zero) :
    a.cross (m.cross a) ≠ vector.zero := by
  intro h
  have ha : a ≠ vector.zero := by
    intro h0
    apply hpar
    rw [h0]
    ext <;> simp [vector.cross, vector.zero]
  have h1 : (a.cross (m.cross a)).dot (a.cross (m.cross a)) = 0 := by
    rw [h]; simp [vector.dot, vector.zero]
  rw [vector.cross_dot_self, vector.dot_comm a (m.cross a), vector.dot_cross_right] at h1
  have h2 := mul_pos (vector.dot_self_pos ha) (vector.dot_self_pos hpar)
  linarith

theorem up_ne_zero {a m : vector ℝ} (hpar : m.cross a ≠ vector.zero) : a ≠ vector.zero := by
  intro h0
  apply hpar
  rw [h0]
  ext <;> simp [vector.cross, vector.zero]

/-- C3: for acceleration and magnetic field that are non-zero and not
parallel, the rows of `rotationFromCompass` are pairwise orthogonal, each
of Euclidean norm 1, and row 2 is the acceleration divided by its norm. -/
theorem rotationFromCompass_orthonormal (a m : vector ℝ)
    (ha : a ≠ vector.zero) (hm : m ≠ vector.zero) (hpar : m.cross a ≠ vector.zero) :
    ((rotationFromCompass a m).row 0).dot ((rotationFromCompass a m).row 1) = 0 ∧
    ((rotationFromCompass a m).row 0).dot ((rotationFromCompass a m).row 2) = 0 ∧
    ((rotationFromCompass a m).row 1).dot ((rotationFromCompass a m).row 2) = 0 ∧
    ((rotationFromCompass a m).row 0).norm = 1 ∧
    ((rotationFromCompass a m).row 1).norm = 1 ∧
    ((rotationFromCompass a m).row 2).norm = 1 ∧
    (rotationFromCompass a m).row 2 = ⟨a.x / a.norm, a.y / a.norm, a.z / a.norm⟩ := by
  have _ := hm
  simp only [rotationFromCompass, matrix.row]
  refine ⟨?_, ?_, ?_, vector.norm_normalize hpar, vector.norm_normalize (north_ne_zero hpar),
    vector.norm_normalize ha, rfl⟩
  · rw [vector.dot_normalize, vector.dot_comm, vector.dot_cross_right, zero_div]
  · rw [vector.dot_normalize, vector.dot_cross_right, zero_div]
  · rw [vector.dot_normalize, vector.dot_cross_left, zero_div]

/-- Acceleration `(0,0,1)` and field `(0,1,0)` are non-zero and not parallel. -/
theorem rotationFromCompass_orthonormal_witness :
    ((rotationFromCompass (⟨0, 0, 1⟩ : vector ℝ) ⟨0, 1, 0⟩).row 0).dot
      ((rotationFromCompass (⟨0, 0, 1⟩ : vector ℝ) ⟨0, 1, 0⟩).row 1) = 0 ∧
    ((rotationFromCompass (⟨0, 0, 1⟩ : vector ℝ) ⟨0, 1, 0⟩).row 2).norm = 1 := by
  have h := rotationFromCompass_orthonormal (⟨0, 0, 1⟩ : vector ℝ) ⟨0, 1, 0⟩
    (by simp [vector.zero]) (by simp [vector.zero]) (by simp [vector.cross, vector.zero])
  exact ⟨h.1, h.2.2.2.2.2.1⟩

/-! ## Proper rotations and the matrix to quaternion conversion -/


theorem so3_cofactors {a b c d e f g h i : ℝ}
    (N0 : a * a + b * b + c * c = 1) (N1 : d * d + e * e + f * f = 1)
    (O01 : a * d + b * e + c * f = 0)
    (X1 : b * f - c * e = g) (X2 : c * d - a * f = h) (X3 : a * e - b * d = i) :
    (e * i - f * h = a ∧ f * g - d * i = b ∧ d * h - e * g = c) ∧
    (h * c - i * b = d ∧ i * a - g * c = e ∧ g * b - h * a = f) ∧
    (a * a + d * d + g * g = 1 ∧ b * b + e * e + h * h = 1 ∧ c * c + f * f + i * i = 1) ∧
    (a * b + d * e + g * h = 0 ∧ a * c + d * f + g * i = 0 ∧ b * c + e * f + h * i = 0) := by
  have A1 : e * i - f * h = a := by linear_combination (-e) * X3 + f * X2 + a * N1 - d * O01
  have A2 : f * g - d * i = b := by linear_combination (-f) * X1 + d * X3 + b * N1 - e * O01
  have A3 : d * h - e * g = c := by linear_combination (-d) * X2 + e * X1 + c * N1 - f * O01
  have B1 : h * c - i * b = d := by linear_combination (-c) * X2 + b * X3 + d * N0 - a * O01
  have B2 : i * a - g * c = e := by linear_combination (-a) * X3 + c * X1 + e * N0 - b * O01
  have B3 : g * b - h * a = f := by linear_combination (-b) * X1 + a * X2 + f * N0 - c * O01
  refine ⟨⟨A1, A2, A3⟩, ⟨B1, B2, B3⟩, ⟨?_, ?_, ?_⟩, ⟨?_, ?_, ?_⟩⟩
  · linear_combination (-d) * B1 - g * X1 + b * A2 + c * A3 + N0
  · linear_combination a * A1 + c * A3 - e * B2 - h * X2 + N0
  · linear_combination a * A1 + b * A2 - f * B3 - i * X3 + N0
  · linear_combination (-b) * A1 - e * B1 - h * X1
  · linear_combination (-c) * A1 - f * B1 - i * X1
  · linear_combination (-c) * A2 - f * B2 - i * X2

/-- The ten products `4·qα·qβ` of a unit quaternion, read off its matrix. -/
theorem so3_rank_one {a b c d e f g h i : ℝ}
    (N0 : a * a + b * b + c * c = 1) (N1 : d * d + e * e + f * f = 1)
    (N2 : g * g + h * h + i * i = 1)
    (O01 : a * d + b * e + c * f = 0) (O02 : a * g + b * h + c * i = 0)
    (O12 : d * g + e * h + f * i = 0)
    (X1 : b * f - c * e = g) (X2 : c * d - a * f = h) (X3 : a * e - b * d = i) :
    ((h - f) * (h - f) = (1 + a + e + i) * (1 + a - e - i) ∧
     (c - g) * (c - g) = (1 + a + e + i) * (1 - a + e - i) ∧
     (d - b) * (d - b) = (1 + a + e + i) * (1 - a - e + i) ∧
     (d + b) * (d + b) = (1 + a - e - i) * (1 - a + e - i) ∧
     (c + g) * (c + g) = (1 + a - e - i) * (1 - a - e + i) ∧
     (h + f) * (h + f) = (1 - a + e - i) * (1 - a - e + i)) ∧
    ((h - f) * (c - g) = (1 + a + e + i) * (d + b) ∧
     (h - f) * (d - b) = (1 + a + e + i) * (c + g) ∧
     (c - g) * (d - b) = (1 + a + e + i) * (h + f)) ∧
    ((h - f) * (d + b) = (1 + a - e - i) * (c - g) ∧
     (h - f) * (c + g) = (1 + a - e - i) * (d - b) ∧
     (d + b) * (c + g) = (1 + a - e - i) * (h + f)) ∧
    ((c - g) * (d + b) = (1 - a + e - i) * (h - f) ∧
     (c - g) * (h + f) = (1 - a + e - i) * (d - b) ∧
     (d + b) * (h + f) = (1 - a + e - i) * (c + g)) ∧
    ((d - b) * (c + g) = (1 - a - e + i) * (h - f) ∧
     (d - b) * (h + f) = (1 - a - e + i) * (c - g) ∧
     (c + g) * (h + f) = (1 - a - e + i) * (d + b)) := by
  obtain ⟨⟨A1, A2, A3⟩, ⟨B1, B2, B3⟩, ⟨C0, C1, C2⟩, ⟨D01, D02, D12⟩⟩ :=
    so3_cofactors N0 N1 O01 X1 X2 X3
  refine ⟨⟨?_, ?_, ?_, ?_, ?_, ?_⟩, ⟨?_, ?_, ?_⟩, ⟨?_, ?_, ?_⟩, ⟨?_, ?_, ?_⟩, ⟨?_, ?_, ?_⟩⟩ <;>
    linarith
/-- A quaternion whose ten pairwise products match the matrix entries has
that matrix as its rotation matrix, and unit squared norm. -/
theorem toRotationMatrix_of_products {a b c d e f g h i w x y z : ℝ}
    (hww : 4 * (w * w) = 1 + a + e + i) (hxx : 4 * (x * x) = 1 + a - e - i)
    (hyy : 4 * (y * y) = 1 - a + e - i) (hzz : 4 * (z * z) = 1 - a - e + i)
    (hwx : 4 * (w * x) = h - f) (hwy : 4 * (w * y) = c - g) (hwz : 4 * (w * z) = d - b)
    (hxy : 4 * (x * y) = d + b) (hxz : 4 * (x * z) = c + g) (hyz : 4 * (y * z) = h + f) :
    (⟨w, x, y, z⟩ : quaternion ℝ).toRotationMatrix = ⟨⟨a, b, c⟩, ⟨d, e, f⟩, ⟨g, h, i⟩⟩ ∧
    (⟨w, x, y, z⟩ : quaternion ℝ).squaredNorm = 1 := by
  refine ⟨?_, ?_⟩
  · simp only [quaternion.toRotationMatrix, matrix.mk.injEq, vector.mk.injEq]
    refine ⟨⟨?_, ?_, ?_⟩, ⟨?_, ?_, ?_⟩, ⟨?_, ?_, ?_⟩⟩ <;> linarith
  · simp only [quaternion.squaredNorm]
    linarith

theorem shoemake_pivot_sq {s D : ℝ} (hs : s * s = D) : 4 * ((1 / 2 * s) * (1 / 2 * s)) = D := by
  linear_combination hs

theorem shoemake_pivot_mul {s D P : ℝ} (hs : s * s = D) (hD : 0 < D) :
    4 * ((1 / 2 * s) * (P * (1 / 2 / s))) = P := by
  have hs0 : s ≠ 0 := by
    rintro rfl
    simp at hs
    exact hD.ne hs
  field_simp
  ring

theorem shoemake_off_mul {s D P Q K : ℝ} (hs : s * s = D) (hD : 0 < D) (hPQ : P * Q = D * K) :
    4 * ((P * (1 / 2 / s)) * (Q * (1 / 2 / s))) = K := by
  have hs0 : s ≠ 0 := by
    rintro rfl
    simp at hs
    exact hD.ne hs
  field_simp
  linear_combination 4 * hPQ - 4 * K * hs

/-- Matrix → quaternion → matrix is the identity on proper rotations, and the
quaternion obtained has unit squared norm. -/
theorem ofMatrix_proper (m : matrix ℝ) (hm : m.IsProperRotation) :
    (quaternion.ofMatrix m).toRotationMatrix = m ∧ (quaternion.ofMatrix m).squaredNorm = 1 := by
  obtain ⟨⟨a, b, c⟩, ⟨d, e, f⟩, ⟨g, h, i⟩⟩ := m
  simp only [matrix.IsProperRotation, vector.dot, vector.cross, vector.mk.injEq] at hm
  obtain ⟨N0, N1, N2, O01, O02, O12, X1, X2, X3⟩ := hm
  obtain ⟨⟨Swx, Swy, Swz, Sxy, Sxz, Syz⟩, ⟨W1, W2, W3⟩, ⟨U1, U2, U3⟩, ⟨V1, V2, V3⟩,
    ⟨Z1, Z2, Z3⟩⟩ := so3_rank_one N0 N1 N2 O01 O02 O12 X1 X2 X3
  simp only [quaternion.ofMatrix, sqrt_real]
  split_ifs with h1 h2 h3
  · -- trace positive: pivot `w`
    have hD : 0 < 1 + a + e + i := by linarith
    have hs : Real.sqrt (a + e + i + 1) * Real.sqrt (a + e + i + 1) = 1 + a + e + i := by
      rw [Real.mul_self_sqrt (by linarith)]; ring
    exact toRotationMatrix_of_products
      (shoemake_pivot_sq hs)
      (shoemake_off_mul hs hD Swx) (shoemake_off_mul hs hD Swy) (shoemake_off_mul hs hD Swz)
      (shoemake_pivot_mul hs hD) (shoemake_pivot_mul hs hD) (shoemake_pivot_mul hs hD)
      (shoemake_off_mul hs hD W1) (shoemake_off_mul hs hD W2) (shoemake_off_mul hs hD W3)
  · -- pivot `x`
    have hD : 0 < 1 + a - e - i := by linarith [h2.1, h2.2]
    have hs : Real.sqrt (a - e - i + 1) * Real.sqrt (a - e - i + 1) = 1 + a - e - i := by
      rw [Real.mul_self_sqrt (by linarith)]; ring
    exact toRotationMatrix_of_products
      (shoemake_off_mul hs hD (by linear_combination Swx))
      (shoemake_pivot_sq hs)
      (shoemake_off_mul hs hD (by linear_combination Sxy))
      (shoemake_off_mul hs hD (by linear_combination Sxz))
      (by linear_combination shoemake_pivot_mul hs hD (P := h - f))
      (shoemake_off_mul hs hD (by linear_combination U1))
      (shoemake_off_mul hs hD (by linear_combination U2))
      (by linear_combination shoemake_pivot_mul hs hD (P := d + b))
      (by linear_combination shoemake_pivot_mul hs hD (P := g + c))
      (shoemake_off_mul hs hD (by linear_combination U3))
  · -- pivot `y`
    have hD : 0 < 1 - a + e - i := by linarith [h3.1, h3.2]
    have hs : Real.sqrt (e - i - a + 1) * Real.sqrt (e - i - a + 1) = 1 - a + e - i := by
      rw [Real.mul_self_sqrt (by linarith)]; ring
    exact toRotationMatrix_of_products
      (shoemake_off_mul hs hD (by linear_combination Swy))
      (shoemake_off_mul hs hD (by linear_combination Sxy))
      (shoemake_pivot_sq hs)
      (shoemake_off_mul hs hD (by linear_combination Syz))
      (shoemake_off_mul hs hD (by linear_combination V1))
      (by linear_combination shoemake_pivot_mul hs hD (P := c - g))
      (shoemake_off_mul hs hD (by linear_combination V2))
      (by linear_combination shoemake_pivot_mul hs hD (P := b + d))
      (shoemake_off_mul hs hD (by linear_combination V3))
      (by linear_combination shoemake_pivot_mul hs hD (P := h + f))
  · -- pivot `z`
    have hai : a ≤ i ∧ e ≤ i := by
      rcases lt_or_le a e with hae | hae
      · have : ¬ i ≤ e := fun hie => h3 ⟨hae, hie⟩
        constructor <;> linarith
      · have : ¬ i ≤ a := fun hia => h2 ⟨hae, hia⟩
        constructor <;> linarith
    have hD : 0 < 1 - a - e + i := by linarith [hai.1, hai.2]
    have hs : Real.sqrt (i - a - e + 1) * Real.sqrt (i - a - e + 1) = 1 - a - e + i := by
      rw [Real.mul_self_sqrt (by linarith)]; ring
    exact toRotationMatrix_of_products
      (shoemake_off_mul hs hD (by linear_combination Swz))
      (shoemake_off_mul hs hD (by linear_combination Sxz))
      (shoemake_off_mul hs hD (by linear_combination Syz))
      (shoemake_pivot_sq hs)
      (shoemake_off_mul hs hD (by linear_combination Z1))
      (shoemake_off_mul hs hD (by linear_combination Z2))
      (by linear_combination shoemake_pivot_mul hs hD (P := d - b))
      (shoemake_off_mul hs hD (by linear_combination Z3))
      (by linear_combination shoemake_pivot_mul hs hD (P := c + g))
      (by linear_combination shoemake_pivot_mul hs hD (P := f + h))

theorem vector.dot_normalize_self {v : vector ℝ} (hv : v ≠ vector.zero) :
    v.normalize.dot v.normalize = 1 := by
  rw [vector.dot_normalize, vector.norm_mul_self]
  exact div_self (vector.dot_self_pos hv).ne'

theorem vector.cross_normalize (u v : vector ℝ) :
    u.normalize.cross v.normalize =
      ⟨(u.cross v).x / (u.norm * v.norm), (u.cross v).y / (u.norm * v.norm),
        (u.cross v).z / (u.norm * v.norm)⟩ := by
  simp only [vector.normalize, vector.cross]
  ext <;> simp only <;> ring

/-- `‖up × east‖ = ‖up‖·‖east‖` because east is orthogonal to up. -/
theorem north_norm (a m : vector ℝ) :
    (a.cross (m.cross a)).norm = a.norm * (m.cross a).norm := by
  simp only [vector.norm, sqrt_real]
  rw [vector.cross_dot_self, vector.dot_comm a (m.cross a), vector.dot_cross_right, zero_mul,
    sub_zero, Real.sqrt_mul a.dot_self_nonneg]

/-- `east × north = up·‖east‖²`. -/
theorem east_cross_north (a m : vector ℝ) :
    (m.cross a).cross (a.cross (m.cross a)) =
      ⟨a.x * (m.cross a).dot (m.cross a), a.y * (m.cross a).dot (m.cross a),
        a.z * (m.cross a).dot (m.cross a)⟩ := by
  simp only [vector.cross, vector.dot]
  ext <;> simp only <;> ring

/-- The compass frame of a non-degenerate sensor pair is a proper rotation. -/
theorem rotationFromCompass_proper {a m : vector ℝ} (hpar : m.cross a ≠ vector.zero) :
    (rotationFromCompass a m).IsProperRotation := by
  have ha := up_ne_zero hpar
  have hn := north_ne_zero hpar
  have hep := vector.norm_pos hpar
  have hap := vector.norm_pos ha
  simp only [rotationFromCompass, matrix.IsProperRotation]
  refine ⟨vector.dot_normalize_self hpar, vector.dot_normalize_self hn,
    vector.dot_normalize_self ha, ?_, ?_, ?_, ?_⟩
  · rw [vector.dot_normalize, vector.dot_comm, vector.dot_cross_right, zero_div]
  · rw [vector.dot_normalize, vector.dot_cross_right, zero_div]
  · rw [vector.dot_normalize, vector.dot_cross_left, zero_div]
  · rw [vector.cross_normalize, east_cross_north, north_norm, ← vector.norm_mul_self]
    simp only [vector.normalize]
    ext <;> simp only <;> field_simp <;> ring

/-! ## Unit magnitude after every step -/

theorem quaternion.squaredNorm_nonneg (q : quaternion ℝ) : 0 ≤ q.squaredNorm := by
  unfold quaternion.squaredNorm
  nlinarith [mul_self_nonneg q.w, mul_self_nonneg q.x, mul_self_nonneg q.y, mul_self_nonneg q.z]

theorem quaternion.squaredNorm_pos {q : quaternion ℝ} (hq : q ≠ ⟨0, 0, 0, 0⟩) :
    0 < q.squaredNorm := by
  rcases lt_or_eq_of_le q.squaredNorm_nonneg with h | h
  · exact h
  · exfalso
    apply hq
    unfold quaternion.squaredNorm at h
    have hw : q.w = 0 := by
      nlinarith [mul_self_nonneg q.w, mul_self_nonneg q.x, mul_self_nonneg q.y,
        mul_self_nonneg q.z]
    have hx : q.x = 0 := by
      nlinarith [mul_self_nonneg q.w, mul_self_nonneg q.x, mul_self_nonneg q.y,
        mul_self_nonneg q.z]
    have hy : q.y = 0 := by
      nlinarith [mul_self_nonneg q.w, mul_self_nonneg q.x, mul_self_nonneg q.y,
        mul_self_nonneg q.z]
    have hz : q.z = 0 := by
      nlinarith [mul_self_nonneg q.w, mul_self_nonneg q.x, mul_self_nonneg q.y,
        mul_self_nonneg q.z]
    ext <;> simp [hw, hx, hy, hz]

theorem quaternion.squaredNorm_mul (p q : quaternion ℝ) :
    (p.mul q).squaredNorm = p.squaredNorm * q.squaredNorm := by
  simp only [quaternion.mul, quaternion.squaredNorm]
  ring

theorem quaternion.qnorm_mul_self (q : quaternion ℝ) : q.norm * q.norm = q.squaredNorm := by
  rw [quaternion.norm, sqrt_real]
  exact Real.mul_self_sqrt q.squaredNorm_nonneg

theorem quaternion.squaredNorm_normalize {q : quaternion ℝ} (hq : 0 < q.squaredNorm) :
    q.normalize.squaredNorm = 1 := by
  have h : q.normalize.squaredNorm = q.squaredNorm / (q.norm * q.norm) := by
    simp only [quaternion.normalize, quaternion.squaredNorm]
    ring
  rw [h, quaternion.qnorm_mul_self]
  exact div_self hq.ne'

theorem quaternion.qnorm_normalize {q : quaternion ℝ} (hq : 0 < q.squaredNorm) :
    q.normalize.norm = 1 := by
  rw [quaternion.norm, sqrt_real, quaternion.squaredNorm_normalize hq, Real.sqrt_one]

/-- The first order delta quaternion `(1, w·dt/2)` has squared norm at least 1. -/
theorem delta_squaredNorm_pos (w : vector ℝ) (dt : ℝ) :
    0 < (⟨1, w.x * dt / 2, w.y * dt / 2, w.z * dt / 2⟩ : quaternion ℝ).squaredNorm := by
  simp only [quaternion.squaredNorm]
  nlinarith [mul_self_nonneg (w.x * dt / 2), mul_self_nonneg (w.y * dt / 2),
    mul_self_nonneg (w.z * dt / 2)]

theorem rotate_norm {q : quaternion ℝ} (hq : q ≠ ⟨0, 0, 0, 0⟩) (w : vector ℝ) (dt : ℝ) :
    (rotate q w dt).norm = 1 := by
  unfold rotate
  apply quaternion.qnorm_normalize
  rw [quaternion.squaredNorm_mul]
  exact mul_pos (quaternion.squaredNorm_pos hq) (delta_squaredNorm_pos w dt)

/-- C4: after one step of any of the three strategies the orientation has
magnitude 1: for gyro-only and default from every non-zero prior orientation
(for default, with a non-degenerate sensor pair whenever the gate passes),
for compass-only for every non-degenerate sensor pair. -/
theorem fusion_unit_magnitude (q : quaternion ℝ) (dt : ℝ) (w a m : vector ℝ) :
    (q ≠ ⟨0, 0, 0, 0⟩ → (fuse_gyro_only q dt w a m).norm = 1) ∧
    (q ≠ ⟨0, 0, 0, 0⟩ → (|a.norm - 1| ≤ 3 / 10 → NonDegenerate a m) →
      (fuse_default q dt w a m).norm = 1) ∧
    (NonDegenerate a m → (fuse_compass_only q dt w a m).norm = 1) := by
  refine ⟨fun hq => rotate_norm hq w dt, fun hq _ => rotate_norm hq _ dt, fun hnd => ?_⟩
  unfold fuse_compass_only
  rw [quaternion.norm, sqrt_real, (ofMatrix_proper _ (rotationFromCompass_proper hnd.2.2)).2,
    Real.sqrt_one]

theorem nonDegenerate_level_north : NonDegenerate ⟨0, 0, 1⟩ ⟨0, 1, 0⟩ :=
  ⟨by simp [vector.zero], by simp [vector.zero], by simp [vector.cross, vector.zero]⟩

/-- One step from the identity with a level, east-facing board. -/
theorem fusion_unit_magnitude_witness :
    (fuse_gyro_only (⟨1, 0, 0, 0⟩ : quaternion ℝ) (1 / 50) ⟨0, 0, 1⟩ ⟨0, 0, 1⟩ ⟨0, 1, 0⟩).norm = 1 ∧
    (fuse_default (⟨1, 0, 0, 0⟩ : quaternion ℝ) (1 / 50) ⟨0, 0, 1⟩ ⟨0, 0, 1⟩ ⟨0, 1, 0⟩).norm = 1 ∧
    (fuse_compass_only (⟨1, 0, 0, 0⟩ : quaternion ℝ) (1 / 50) ⟨0, 0, 1⟩ ⟨0, 0, 1⟩ ⟨0, 1, 0⟩).norm
      = 1 := by
  have h := fusion_unit_magnitude (⟨1, 0, 0, 0⟩ : quaternion ℝ) (1 / 50) ⟨0, 0, 1⟩ ⟨0, 0, 1⟩
    ⟨0, 1, 0⟩
  have hq : (⟨1, 0, 0, 0⟩ : quaternion ℝ) ≠ ⟨0, 0, 0, 0⟩ := by simp
  exact ⟨h.1 hq, h.2.1 hq (fun _ => nonDegenerate_level_north), h.2.2 nonDegenerate_level_north⟩

/-! ## The compass-only step -/

/-- C7: for a non-degenerate sensor pair the orientation produced by the
compass-only step converts back to exactly `rotationFromCompass a m`, and it
is the same whatever the prior orientation, `dt` and angular velocity. -/
theorem fuse_compass_only_roundtrip (q : quaternion ℝ) (dt : ℝ) (w a m : vector ℝ)
    (hnd : NonDegenerate a m) :
    (fuse_compass_only q dt w a m).toRotationMatrix = rotationFromCompass a m ∧
    ∀ (q2 : quaternion ℝ) (dt2 : ℝ) (w2 : vector ℝ),
      fuse_compass_only q2 dt2 w2 a m = fuse_compass_only q dt w a m :=
  ⟨(ofMatrix_proper _ (rotationFromCompass_proper hnd.2.2)).1, fun _ _ _ => rfl⟩

/-- Level, east-facing board: the compass-only result converts back to the
identity matrix. -/
theorem fuse_compass_only_roundtrip_witness :
    NonDegenerate ⟨0, 0, 1⟩ ⟨0, 1, 0⟩ ∧
    (fuse_compass_only (⟨0, 1, 0, 0⟩ : quaternion ℝ) (1 / 50) ⟨1, 2, 3⟩ ⟨0, 0, 1⟩
      ⟨0, 1, 0⟩).toRotationMatrix = ⟨⟨1, 0, 0⟩, ⟨0, 1, 0⟩, ⟨0, 0, 1⟩⟩ := by
  refine ⟨nonDegenerate_level_north, ?_⟩
  rw [(fuse_compass_only_roundtrip ⟨0, 1, 0, 0⟩ (1 / 50) ⟨1, 2, 3⟩ ⟨0, 0, 1⟩ ⟨0, 1, 0⟩
    nonDegenerate_level_north).1, compass_level_north]

/-! ## Heading -/

/-- C10: `heading` of a matrix whose first column is exactly `(1,0,0)` is 0,
and of a matrix whose first column is exactly `(0,1,0)` is `π/2`. -/
theorem heading_axes (m : matrix ℝ) :
    (m.col 0 = ⟨1, 0, 0⟩ → heading m = 0) ∧
    (m.col 0 = ⟨0, 1, 0⟩ → heading m = Real.pi / 2) := by
  constructor
  · intro h
    have hn : (⟨1, 0, 0⟩ : vector ℝ).norm = 1 := by simp [vector.norm, vector.dot]
    simp only [heading, h, vector.normalize, hn, atan2_real, div_one]
    exact Complex.arg_one
  · intro h
    have hn : (⟨0, 1, 0⟩ : vector ℝ).norm = 1 := by simp [vector.norm, vector.dot]
    simp only [heading, h, vector.normalize, hn, atan2_real, div_one]
    exact Complex.arg_I

/-- The identity matrix faces east; the quarter turn about the vertical
faces north. -/
theorem heading_axes_witness :
    heading (⟨⟨1, 0, 0⟩, ⟨0, 1, 0⟩, ⟨0, 0, 1⟩⟩ : matrix ℝ) = 0 ∧
    heading (⟨⟨0, -1, 0⟩, ⟨1, 0, 0⟩, ⟨0, 0, 1⟩⟩ : matrix ℝ) = Real.pi / 2 :=
  ⟨(heading_axes ⟨⟨1, 0, 0⟩, ⟨0, 1, 0⟩, ⟨0, 0, 1⟩⟩).1 rfl,
    (heading_axes ⟨⟨0, -1, 0⟩, ⟨1, 0, 0⟩, ⟨0, 0, 1⟩⟩).2 rfl⟩

/-! ## Arctangent bounds -/

theorem arctan_nonneg_of_nonneg {x : ℝ} (hx : 0 ≤ x) : 0 ≤ Real.arctan x := by
  have h := Real.arctan_strictMono.monotone hx
  rwa [Real.arctan_zero] at h

theorem arctan_le_self_of_nonneg {x : ℝ} (hx : 0 ≤ x) : Real.arctan x ≤ x := by
  have h := Real.le_tan (arctan_nonneg_of_nonneg hx) (Real.arctan_lt_pi_div_two x)
  rwa [Real.tan_arctan] at h

theorem sub_cube_le_arctan {x : ℝ} (hx : 0 ≤ x) : x - x ^ 3 / 3 ≤ Real.arctan x := by
  have hd : ∀ t : ℝ, HasDerivAt (fun t => Real.arctan t - t + t ^ 3 / 3)
      (1 / (1 + t ^ 2) - 1 + t ^ 2) t := by
    intro t
    have h3 : HasDerivAt (fun t : ℝ => t ^ 3 / 3) (t ^ 2) t := by
      have h := (hasDerivAt_pow 3 t).div_const 3
      convert h using 1
      simp
    exact ((Real.hasDerivAt_arctan t).sub (hasDerivAt_id t)).add h3
  have hmono : Monotone (fun t => Real.arctan t - t + t ^ 3 / 3) := by
    apply monotone_of_deriv_nonneg (fun t => (hd t).differentiableAt)
    intro t
    rw [(hd t).deriv]
    have h : 1 / (1 + t ^ 2) - 1 + t ^ 2 = t ^ 4 / (1 + t ^ 2) := by
      have : (1 + t ^ 2) ≠ 0 := by positivity
      field_simp
      ring
    rw [h]
    positivity
  have h := hmono hx
  simp only [Real.arctan_zero] at h
  norm_num at h
  linarith

/-! ## Integrating a constant angular velocity -/

theorem quaternion.mul_assoc (p q r : quaternion ℝ) : (p.mul q).mul r = p.mul (q.mul r) := by
  simp only [quaternion.mul]
  ext <;> simp only <;> ring

theorem quaternion.squaredNorm_of_norm {q : quaternion ℝ} (hq : q.norm = 1) :
    q.squaredNorm = 1 := by
  rw [← quaternion.qnorm_mul_self, hq, mul_one]

/-- Squared norm of the delta quaternion in terms of `x = ‖w‖·dt/2`. -/
theorem delta_squaredNorm (w : vector ℝ) (dt : ℝ) :
    (⟨1, w.x * dt / 2, w.y * dt / 2, w.z * dt / 2⟩ : quaternion ℝ).squaredNorm =
      1 + (w.norm * dt / 2) ^ 2 := by
  have h := vector.norm_mul_self w
  simp only [vector.dot] at h
  simp only [quaternion.squaredNorm]
  linear_combination (-(dt ^ 2 / 4)) * h

/-- One gyro step from a unit quaternion is right multiplication by
`(cos φ, sin φ · w/‖w‖)` with `φ = atan(‖w‖·dt/2)`. -/
theorem rotate_unit {q : quaternion ℝ} (hq : q.squaredNorm = 1) {w : vector ℝ}
    (hw : w ≠ vector.zero) (dt : ℝ) :
    rotate q w dt =
      q.mul ⟨Real.cos (Real.arctan (w.norm * dt / 2)),
        Real.sin (Real.arctan (w.norm * dt / 2)) * (w.x / w.norm),
        Real.sin (Real.arctan (w.norm * dt / 2)) * (w.y / w.norm),
        Real.sin (Real.arctan (w.norm * dt / 2)) * (w.z / w.norm)⟩ := by
  have hwn : w.norm ≠ 0 := (vector.norm_pos hw).ne'
  have hS : Real.sqrt (1 + (w.norm * dt / 2) ^ 2) ≠ 0 :=
    (Real.sqrt_pos.mpr (by positivity)).ne'
  have hn : (q.mul ⟨1, w.x * dt / 2, w.y * dt / 2, w.z * dt / 2⟩).norm =
      Real.sqrt (1 + (w.norm * dt / 2) ^ 2) := by
    rw [quaternion.norm, sqrt_real, quaternion.squaredNorm_mul, hq, one_mul, delta_squaredNorm]
  simp only [rotate, quaternion.normalize, hn, Real.cos_arctan, Real.sin_arctan]
  generalize Real.sqrt (1 + (w.norm * dt / 2) ^ 2) = S at hS
  generalize w.norm = N at hwn
  obtain ⟨qw, qx, qy, qz⟩ := q
  obtain ⟨wx, wy, wz⟩ := w
  simp only [quaternion.mul, quaternion.mk.injEq]
  clear hn hq hw
  refine ⟨?_, ?_, ?_, ?_⟩ <;> field_simp <;> ring

theorem axis_mul_axis {w : vector ℝ} (hw : w ≠ vector.zero) (α β : ℝ) :
    (⟨Real.cos α, Real.sin α * (w.x / w.norm), Real.sin α * (w.y / w.norm),
        Real.sin α * (w.z / w.norm)⟩ : quaternion ℝ).mul
      ⟨Real.cos β, Real.sin β * (w.x / w.norm), Real.sin β * (w.y / w.norm),
        Real.sin β * (w.z / w.norm)⟩ =
      ⟨Real.cos (α + β), Real.sin (α + β) * (w.x / w.norm), Real.sin (α + β) * (w.y / w.norm),
        Real.sin (α + β) * (w.z / w.norm)⟩ := by
  have hwn : w.norm ≠ 0 := (vector.norm_pos hw).ne'
  have h := vector.norm_mul_self w
  simp only [vector.dot] at h
  simp only [quaternion.mul, Real.cos_add, Real.sin_add]
  ext <;> simp only
  · field_simp
    linear_combination (Real.sin α * Real.sin β) * h
  · ring
  · ring
  · ring

theorem axis_squaredNorm {w : vector ℝ} (hw : w ≠ vector.zero) (α : ℝ) :
    (⟨Real.cos α, Real.sin α * (w.x / w.norm), Real.sin α * (w.y / w.norm),
        Real.sin α * (w.z / w.norm)⟩ : quaternion ℝ).squaredNorm = 1 := by
  have hwn : w.norm ≠ 0 := (vector.norm_pos hw).ne'
  have h := vector.norm_mul_self w
  simp only [vector.dot] at h
  have hcs := Real.sin_sq_add_cos_sq α
  simp only [quaternion.squaredNorm]
  field_simp
  linear_combination (w.norm ^ 2) * hcs - (Real.sin α) ^ 2 * h

/-- C9: from a unit orientation `q0`, `n` gyro-only steps with the same
non-zero angular velocity `w` and the same `dt ≥ 0` give
`q0 · (cos(nφ), sin(nφ)·w/‖w‖)` with `φ = atan(‖w‖·dt/2)`; the rotation
angle `2nφ` falls short of the closed-form angle `n·dt·‖w‖` by at most
`n·(‖w‖·dt)³/12`, and never exceeds it. -/
theorem gyro_constant_rate (q0 : quaternion ℝ) (w a m : vector ℝ) (dt : ℝ) (n : ℕ)
    (hq : q0.norm = 1) (hw : w ≠ vector.zero) (hdt : 0 ≤ dt) :
    (fun q => fuse_gyro_only q dt w a m)^[n] q0 =
      q0.mul ⟨Real.cos (n * Real.arctan (w.norm * dt / 2)),
        Real.sin (n * Real.arctan (w.norm * dt / 2)) * (w.x / w.norm),
        Real.sin (n * Real.arctan (w.norm * dt / 2)) * (w.y / w.norm),
        Real.sin (n * Real.arctan (w.norm * dt / 2)) * (w.z / w.norm)⟩ ∧
    0 ≤ n * dt * w.norm - 2 * n * Real.arctan (w.norm * dt / 2) ∧
    n * dt * w.norm - 2 * n * Real.arctan (w.norm * dt / 2) ≤ n * (w.norm * dt) ^ 3 / 12 := by
  have hx : 0 ≤ w.norm * dt / 2 := by
    have := (vector.norm_pos hw).le
    positivity
  refine ⟨?_, ?_, ?_⟩
  · induction n with
    | zero =>
      simp only [Function.iterate_zero, id_eq, Nat.cast_zero, zero_mul, Real.cos_zero,
        Real.sin_zero]
      exact (quaternion.mul_one_right q0).symm
    | succ k ih =>
      rw [Function.iterate_succ_apply', ih]
      simp only [fuse_gyro_only]
      rw [rotate_unit _ hw, quaternion.mul_assoc, axis_mul_axis hw]
      · push_cast
        rw [add_one_mul]
      · rw [quaternion.squaredNorm_mul, quaternion.squaredNorm_of_norm hq, axis_squaredNorm hw,
          mul_one]
  · have h := arctan_le_self_of_nonneg hx
    nlinarith [mul_nonneg (Nat.cast_nonneg n : (0 : ℝ) ≤ n) (sub_nonneg.mpr h)]
  · have h := sub_cube_le_arctan hx
    nlinarith [mul_nonneg (Nat.cast_nonneg n : (0 : ℝ) ≤ n) (sub_nonneg.mpr h)]

/-- Three steps of 20 ms at 1 rad/s about the vertical, from the identity. -/
theorem gyro_constant_rate_witness :
    (fun q => fuse_gyro_only q (1 / 50) ⟨0, 0, 1⟩ ⟨0, 0, 1⟩ ⟨0, 1, 0⟩)^[3]
        (⟨1, 0, 0, 0⟩ : quaternion ℝ) =
      (⟨1, 0, 0, 0⟩ : quaternion ℝ).mul
        ⟨Real.cos ((3 : ℕ) * Real.arctan ((⟨0, 0, 1⟩ : vector ℝ).norm * (1 / 50) / 2)),
          Real.sin ((3 : ℕ) * Real.arctan ((⟨0, 0, 1⟩ : vector ℝ).norm * (1 / 50) / 2)) *
            (0 / (⟨0, 0, 1⟩ : vector ℝ).norm),
          Real.sin ((3 : ℕ) * Real.arctan ((⟨0, 0, 1⟩ : vector ℝ).norm * (1 / 50) / 2)) *
            (0 / (⟨0, 0, 1⟩ : vector ℝ).norm),
          Real.sin ((3 : ℕ) * Real.arctan ((⟨0, 0, 1⟩ : vector ℝ).norm * (1 / 50) / 2)) *
            (1 / (⟨0, 0, 1⟩ : vector ℝ).norm)⟩ :=
  (gyro_constant_rate ⟨1, 0, 0, 0⟩ ⟨0, 0, 1⟩ ⟨0, 0, 1⟩ ⟨0, 1, 0⟩ (1 / 50) 3 identity_norm
    (by simp [vector.zero]) (by norm_num)).1

/-! ## End-to-end gyro-only example -/

theorem quaternion.one_mul_left (q : quaternion ℝ) : (⟨1, 0, 0, 0⟩ : quaternion ℝ).mul q = q := by
  ext <;> simp [quaternion.mul]

theorem abs_cos_sub_cos_le (x y : ℝ) : |Real.cos x - Real.cos y| ≤ |x - y| := by
  rw [Real.cos_sub_cos]
  have h1 := Real.abs_sin_le_one ((x + y) / 2)
  have h2 : |Real.sin ((x - y) / 2)| ≤ |(x - y) / 2| := Real.abs_sin_le_abs
  have h3 : |(x - y) / 2| = |x - y| / 2 := by rw [abs_div]; norm_num
  rw [abs_mul, abs_mul, abs_neg, abs_two]
  nlinarith [abs_nonneg (Real.sin ((x + y) / 2)), abs_nonneg (Real.sin ((x - y) / 2)),
    abs_nonneg (x - y)]

theorem abs_sin_sub_sin_le (x y : ℝ) : |Real.sin x - Real.sin y| ≤ |x - y| := by
  rw [Real.sin_sub_sin]
  have h1 := Real.abs_cos_le_one ((x + y) / 2)
  have h2 : |Real.sin ((x - y) / 2)| ≤ |(x - y) / 2| := Real.abs_sin_le_abs
  have h3 : |(x - y) / 2| = |x - y| / 2 := by rw [abs_div]; norm_num
  rw [abs_mul, abs_mul, abs_two]
  nlinarith [abs_nonneg (Real.cos ((x + y) / 2)), abs_nonneg (Real.sin ((x - y) / 2)),
    abs_nonneg (x - y)]

/-- The quaternion after the example step: `(cos φ, 0, 0, sin φ)` with
`φ = atan(π/200)`. -/
theorem example_step (a m : vector ℝ) :
    fuse_gyro_only quaternion.Identity (1 / 50) ⟨0, 0, Real.pi / 2⟩ a m =
      ⟨Real.cos (Real.arctan (Real.pi / 200)), 0, 0, Real.sin (Real.arctan (Real.pi / 200))⟩ := by
  have hpi := Real.pi_pos
  have hn : (⟨0, 0, Real.pi / 2⟩ : vector ℝ).norm = Real.pi / 2 := by
    have h : (⟨0, 0, Real.pi / 2⟩ : vector ℝ).dot ⟨0, 0, Real.pi / 2⟩ = (Real.pi / 2) ^ 2 := by
      simp [vector.dot]; ring
    rw [vector.norm, sqrt_real, h, Real.sqrt_sq (by positivity)]
  have hw : (⟨0, 0, Real.pi / 2⟩ : vector ℝ) ≠ vector.zero := by
    simp [vector.zero, hpi.ne']
  have hq : (quaternion.Identity : quaternion ℝ).squaredNorm = 1 := by
    simp [quaternion.Identity, quaternion.squaredNorm]
  have hx : Real.pi / 2 * (1 / 50) / 2 = Real.pi / 200 := by ring
  rw [fuse_gyro_only, rotate_unit hq hw, hn, hx]
  simp only [quaternion.Identity, quaternion.one_mul_left, zero_div, mul_zero]
  rw [div_self (by positivity), mul_one]

/-- The rotation angle `2·atan(π/200)` of the example is within `1e-4` of
`π/100`. -/
theorem example_angle : |2 * Real.arctan (Real.pi / 200) - Real.pi / 100| ≤ 1 / 10000 := by
  have hpi := Real.pi_pos
  have hlt := Real.pi_lt_d2
  have hx : (0 : ℝ) ≤ Real.pi / 200 := by positivity
  have h1 := arctan_le_self_of_nonneg hx
  have h2 := sub_cube_le_arctan hx
  have h3 : (Real.pi / 200) ^ 3 ≤ (2 / 125 : ℝ) ^ 3 :=
    pow_le_pow_left₀ hx (by linarith) 3
  rw [abs_le]
  constructor
  · norm_num at h3 ⊢
    linarith
  · linarith

/-- C8: from the identity, one gyro-only step with `dt = 0.02` and angular
velocity `(0, 0, π/2)` gives a rotation about the z axis only
(`r22 = 1`, `r02 = r12 = r20 = r21 = 0`) by an angle within `1e-4` of
`π/100`, and the four remaining entries are within `1e-4` of those of the
rotation by `π/100` about z. -/
theorem gyro_end_to_end (a m : vector ℝ) :
    ∃ θ : ℝ, |θ - Real.pi / 100| ≤ 1 / 10000 ∧
      (fuse_gyro_only quaternion.Identity (1 / 50) ⟨0, 0, Real.pi / 2⟩ a m).toRotationMatrix =
        ⟨⟨Real.cos θ, -Real.sin θ, 0⟩, ⟨Real.sin θ, Real.cos θ, 0⟩, ⟨0, 0, 1⟩⟩ ∧
      |Real.cos θ - Real.cos (Real.pi / 100)| ≤ 1 / 10000 ∧
      |-Real.sin θ - -Real.sin (Real.pi / 100)| ≤ 1 / 10000 ∧
      |Real.sin θ - Real.sin (Real.pi / 100)| ≤ 1 / 10000 := by
  refine ⟨2 * Real.arctan (Real.pi / 200), example_angle, ?_,
    (abs_cos_sub_cos_le _ _).trans example_angle, ?_,
    (abs_sin_sub_sin_le _ _).trans example_angle⟩
  · rw [example_step]
    simp only [quaternion.toRotationMatrix, Real.cos_two_mul, Real.sin_two_mul, matrix.mk.injEq,
      vector.mk.injEq]
    have hcs := Real.sin_sq_add_cos_sq (Real.arctan (Real.pi / 200))
    refine ⟨⟨?_, ?_, ?_⟩, ⟨?_, ?_, ?_⟩, ⟨?_, ?_, ?_⟩⟩ <;> first
      | ring1
      | linear_combination (2 : ℝ) * hcs
      | linear_combination (-2 : ℝ) * hcs
  · rw [neg_sub_neg, abs_sub_comm]
    exact (abs_sin_sub_sin_le _ _).trans example_angle

/-! ## The sampling loop: clock error and elapsed time -/

theorem wrap32_of_range {x : Int} (h0 : -2 ^ 31 ≤ x) (h1 : x < 2 ^ 31) : wrap32 x = x := by
  unfold wrap32
  norm_num at h0 h1 ⊢
  omega

theorem wrap32_sub_wrap32 {l n : Int} (h0 : l ≤ n) (h1 : n - l < 2 ^ 31) :
    wrap32 (wrap32 n - wrap32 l) = n - l := by
  unfold wrap32
  norm_num at h1 ⊢
  omega

/-- C11: in an iteration whose measured `dt` is negative, the iteration
throws "time went backwards" having made no call but `millis()`: no sensor
is read, the fusion strategy is not invoked, no record is printed, and the
orientation is the one held before the iteration. -/
theorem ahrs_clock_error (fuse_func : fuse_function ℝ) (clock : Nat → Int)
    (imu : Nat → Sample ℝ) (fuel : Nat) (st : AhrsState ℝ)
    (hdt : (ahrs_dt (clock st.tick) st.start : ℝ) < 0) :
    (ahrs_iteration fuse_func clock imu fuel st).status = Status.threw "time went backwards" ∧
    (ahrs_iteration fuse_func clock imu fuel st).trace = [Event.millis (clock st.tick)] ∧
    (ahrs_iteration fuse_func clock imu fuel st).state.rotation = st.rotation := by
  unfold ahrs_iteration
  simp only [if_pos hdt, and_self]

/-- The clock reads 990 after a start at 1000. -/
theorem ahrs_clock_error_witness :
    (ahrs_dt ((fun _ => (990 : Int)) 1) 1000 : ℝ) < 0 ∧
    (ahrs_iteration fuse_default (fun _ => 990) (fun _ => ⟨⟨0, 0, 1⟩, ⟨0, 0, 1⟩, ⟨0, 1, 0⟩⟩) 5
      (⟨⟨1, 0, 0, 0⟩, 1000, 1, 0⟩ : AhrsState ℝ)).state.rotation = ⟨1, 0, 0, 0⟩ := by
  have h : (ahrs_dt ((fun _ => (990 : Int)) 1) 1000 : ℝ) < 0 := by
    have hw : wrap32 (990 - 1000) = -10 := by decide
    simp only [ahrs_dt, hw]
    norm_num
  exact ⟨h, (ahrs_clock_error fuse_default (fun _ => 990)
    (fun _ => ⟨⟨0, 0, 1⟩, ⟨0, 0, 1⟩, ⟨0, 1, 0⟩⟩) 5 ⟨⟨1, 0, 0, 0⟩, 1000, 1, 0⟩ h).2.2⟩

/-- C13: for true millisecond readings `last ≤ now` less than `2^31` apart,
the `dt` computed from the two `int` values `millis()` returns is
`(now − last)/1000`, it is non-negative, and an iteration that starts at
these readings does not throw, also when the 32-bit counter wrapped in
between. -/
theorem ahrs_dt_exact (sec0 usec0 sec1 usec1 : Int)
    (hle : sec0 * 1000 + usec0 / 1000 ≤ sec1 * 1000 + usec1 / 1000)
    (hlt : (sec1 * 1000 + usec1 / 1000) - (sec0 * 1000 + usec0 / 1000) < 2 ^ 31) :
    (ahrs_dt (millis sec1 usec1) (millis sec0 usec0) : ℝ) =
      (((sec1 * 1000 + usec1 / 1000) - (sec0 * 1000 + usec0 / 1000) : Int) : ℝ) / 1000 ∧
    (0 : ℝ) ≤ ahrs_dt (millis sec1 usec1) (millis sec0 usec0) ∧
    ∀ (fuse_func : fuse_function ℝ) (clock : Nat → Int) (imu : Nat → Sample ℝ) (fuel : Nat)
      (st : AhrsState ℝ), st.start = millis sec0 usec0 → clock st.tick = millis sec1 usec1 →
      ∀ what, (ahrs_iteration fuse_func clock imu fuel st).status ≠ Status.threw what := by
  have he : (ahrs_dt (millis sec1 usec1) (millis sec0 usec0) : ℝ) =
      (((sec1 * 1000 + usec1 / 1000) - (sec0 * 1000 + usec0 / 1000) : Int) : ℝ) / 1000 := by
    simp only [ahrs_dt, millis, wrap32_sub_wrap32 hle hlt]
  have hnn : (0 : ℝ) ≤ ahrs_dt (millis sec1 usec1) (millis sec0 usec0) := by
    rw [he]
    have : (0 : ℝ) ≤ (((sec1 * 1000 + usec1 / 1000) - (sec0 * 1000 + usec0 / 1000) : Int) : ℝ) := by
      exact_mod_cast sub_nonneg.mpr hle
    positivity
  refine ⟨he, hnn, ?_⟩
  intro fuse_func clock imu fuel st hs hc what
  unfold ahrs_iteration
  simp only [hs, hc, if_neg (not_lt.mpr hnn)]
  cases pace clock (millis sec1 usec1) fuel (st.tick + 1) <;> simp

/-- The truncated counter wraps between the two readings: the true counts
are `2^31 − 5` and `2^31 + 10` milliseconds, `dt` is 15 ms. -/
theorem ahrs_dt_exact_witness :
    millis 2147483 658000 < millis 2147483 643000 ∧
    (ahrs_dt (millis 2147483 658000) (millis 2147483 643000) : ℝ) = 15 / 1000 := by
  have h := (ahrs_dt_exact 2147483 643000 2147483 658000 (by decide) (by decide)).1
  refine ⟨by decide, ?_⟩
  rw [h]
  norm_num

/-! ## Usage error -/

/-- With a healthy device an unknown action exits with status 3, but only
after the device object was constructed and the connection checked; with a
device that fails the connection check the exit status is 1. -/
theorem usage_error_after_connection_check :
    MainEvent.checkConnection ∈ (main ["bogus"] ⟨true, true, false⟩).1 ∧
    (main ["bogus"] ⟨true, false, false⟩).2 = some 1 := by
  decide

/-- C12 (amended): for a first argument other than "raw", "gyro-only" and
"compass-only", once the device object is constructed and `checkConnection`
has returned, `main` reports the unknown action and exits with status 3,
which differs from 0 and from 1; neither loop is entered, so no calibration,
enable or read call is made and no record is printed.  When the
construction or the connection check throws, the exit status is 1. -/
theorem usage_error_exit (action : String) (rest : List String) (dev : Device)
    (hraw : action ≠ "raw") (hgyro : action ≠ "gyro-only")
    (hcompass : action ≠ "compass-only") :
    (dev.opens = true → dev.connected = true →
      main (action :: rest) dev =
        ([MainEvent.construct, MainEvent.checkConnection,
          MainEvent.stderr_unknown_action action], some 3)) ∧
    (3 : Nat) ≠ 0 ∧ (3 : Nat) ≠ 1 ∧
    ((dev.opens = false ∨ dev.connected = false) → (main (action :: rest) dev).2 = some 1) := by
  refine ⟨?_, by decide, by decide, ?_⟩
  · intro ho hc
    simp [main, ho, hc, hraw, hgyro, hcompass]
  · rintro (ho | hc)
    · simp [main, ho]
    · cases hopen : dev.opens <;> simp [main, hopen, hc]

/-- The action "bogus" on a healthy device. -/
theorem usage_error_exit_witness :
    main ["bogus"] ⟨true, true, false⟩ =
      ([MainEvent.construct, MainEvent.checkConnection,
        MainEvent.stderr_unknown_action "bogus"], some 3) :=
  (usage_error_exit "bogus" [] ⟨true, true, false⟩ (by decide) (by decide) (by decide)).1 rfl rfl

/-! ## Heading as implemented and as specified -/

theorem atan2_scale (x y n : ℝ) (hn : 0 < n) :
    (CMath.atan2 (y / n) (x / n) : ℝ) = CMath.atan2 y x := by
  simp only [atan2_real]
  have h : (⟨x / n, y / n⟩ : ℂ) = ((n⁻¹ : ℝ) : ℂ) * ⟨x, y⟩ := by
    apply Complex.ext
    · simp only [Complex.mul_re, Complex.ofReal_re, Complex.ofReal_im, zero_mul, sub_zero]
      ring
    · simp only [Complex.mul_im, Complex.ofReal_re, Complex.ofReal_im, zero_mul, add_zero]
      ring
  rw [h, Complex.arg_real_mul _ (inv_pos.mpr hn)]

/-- C14: when the first column has a non-zero horizontal projection,
`heading` (normalize the column, then drop the vertical component) equals the
specified computation (drop the vertical component, then normalize), and
both are `atan2(c_y, c_x)`. -/
theorem heading_refines_spec (m : matrix ℝ)
    (h : (m.col 0).x ≠ 0 ∨ (m.col 0).y ≠ 0) :
    heading m = heading_spec m ∧ heading m = CMath.atan2 (m.col 0).y (m.col 0).x := by
  have hc : m.col 0 ≠ vector.zero := by
    intro h0
    rw [h0] at h
    simp [vector.zero] at h
  have hh : (⟨(m.col 0).x, (m.col 0).y, 0⟩ : vector ℝ) ≠ vector.zero := by
    intro h0
    have hx := congrArg vector.x h0
    have hy := congrArg vector.y h0
    simp only [vector.zero] at hx hy
    rcases h with h | h
    · exact h hx
    · exact h hy
  have h1 : heading m = CMath.atan2 (m.col 0).y (m.col 0).x := by
    simp only [heading, vector.normalize]
    exact atan2_scale _ _ _ (vector.norm_pos hc)
  have h2 : heading_spec m = CMath.atan2 (m.col 0).y (m.col 0).x := by
    simp only [heading_spec, vector.normalize]
    exact atan2_scale _ _ _ (vector.norm_pos hh)
  exact ⟨h1.trans h2.symm, h1⟩

/-- A board pitched up: first column `(3/5, 0, 4/5)`. -/
theorem heading_refines_spec_witness :
    heading (⟨⟨3 / 5, 0, 0⟩, ⟨0, 1, 0⟩, ⟨4 / 5, 0, 0⟩⟩ : matrix ℝ) =
      heading_spec (⟨⟨3 / 5, 0, 0⟩, ⟨0, 1, 0⟩, ⟨4 / 5, 0, 0⟩⟩ : matrix ℝ) :=
  (heading_refines_spec ⟨⟨3 / 5, 0, 0⟩, ⟨0, 1, 0⟩, ⟨4 / 5, 0, 0⟩⟩
    (Or.inl (by simp [matrix.col]))).1

/-! ## Drift correction -/

theorem vector.zero_add_left (v : vector ℝ) : vector.zero.add v = v := by
  ext <;> simp [vector.add, vector.zero]

/-- For a unit quaternion the `1 − …` diagonal of `toRotationMatrix` is the
homogeneous one. -/
theorem toRotationMatrix_unit {q : quaternion ℝ} (hq : q.squaredNorm = 1) :
    q.toRotationMatrix =
      ⟨⟨q.w * q.w + q.x * q.x - q.y * q.y - q.z * q.z, 2 * q.x * q.y - 2 * q.w * q.z,
          2 * q.x * q.z + 2 * q.w * q.y⟩,
        ⟨2 * q.x * q.y + 2 * q.w * q.z, q.w * q.w - q.x * q.x + q.y * q.y - q.z * q.z,
          2 * q.y * q.z - 2 * q.w * q.x⟩,
        ⟨2 * q.x * q.z - 2 * q.w * q.y, 2 * q.y * q.z + 2 * q.w * q.x,
          q.w * q.w - q.x * q.x - q.y * q.y + q.z * q.z⟩⟩ := by
  simp only [quaternion.squaredNorm] at hq
  simp only [quaternion.toRotationMatrix, matrix.mk.injEq, vector.mk.injEq]
  refine ⟨⟨?_, ?_, ?_⟩, ⟨?_, ?_, ?_⟩, ⟨?_, ?_, ?_⟩⟩ <;>
    first
    | ring1
    | linear_combination (-1 : ℝ) * hq

/-- Alignment of the frames of two unit quaternions through their
four-dimensional dot product. -/
theorem alignment_unit {p c : quaternion ℝ} (hp : p.squaredNorm = 1) (hc : c.squaredNorm = 1) :
    alignment c.toRotationMatrix p.toRotationMatrix =
      4 * (p.w * c.w + p.x * c.x + p.y * c.y + p.z * c.z) ^ 2 - 1 := by
  rw [toRotationMatrix_unit hp, toRotationMatrix_unit hc]
  simp only [quaternion.squaredNorm] at hp hc
  simp only [alignment, matrix.row, vector.dot]
  linear_combination (-(p.w * p.w + p.x * p.x + p.y * p.y + p.z * p.z)) * hc - hp

/-- The correction vector of two unit quaternions: four times the scalar
part times the vector part of the relative quaternion `p* · c`. -/
theorem correction_unit {p c : quaternion ℝ} (hp : p.squaredNorm = 1) (hc : c.squaredNorm = 1) :
    (((c.toRotationMatrix.row 0).cross (p.toRotationMatrix.row 0)).add
        ((c.toRotationMatrix.row 1).cross (p.toRotationMatrix.row 1)) |>.add
        ((c.toRotationMatrix.row 2).cross (p.toRotationMatrix.row 2))) =
      ⟨4 * (p.w * c.w + p.x * c.x + p.y * c.y + p.z * c.z) *
          (p.w * c.x - c.w * p.x - (p.y * c.z - p.z * c.y)),
        4 * (p.w * c.w + p.x * c.x + p.y * c.y + p.z * c.z) *
          (p.w * c.y - c.w * p.y - (p.z * c.x - p.x * c.z)),
        4 * (p.w * c.w + p.x * c.x + p.y * c.y + p.z * c.z) *
          (p.w * c.z - c.w * p.z - (p.x * c.y - p.y * c.x))⟩ := by
  rw [toRotationMatrix_unit hp, toRotationMatrix_unit hc]
  simp only [matrix.row, vector.cross, vector.add, vector.mk.injEq]
  refine ⟨?_, ?_, ?_⟩ <;> ring

theorem alignment_gain (d v s : ℝ) (hv : 0 ≤ v) (hdv : d * d + v = 1) (hs0 : 0 ≤ s)
    (hs1 : s ≤ 1 / 2) :
    d * d * (1 + s * s * (16 * (d * d) * v)) ≤ (d + s * (4 * d * v)) ^ 2 := by
  have hd : 0 ≤ d * d := mul_self_nonneg d
  have h1 : 0 ≤ 1 + 2 * s * v - 2 * s * (d * d) := by nlinarith
  have h2 := mul_nonneg (mul_nonneg (mul_nonneg hs0 hv) hd) h1
  nlinarith

/-- Dot product of the un-normalized step `q · (1, s·u)` with `c`, and the
squared norm of the step, for the correction `u = 4·d·r`. -/
theorem step_dot (qw qx qy qz cw cx cy cz s : ℝ)
    (hq : qw * qw + qx * qx + qy * qy + qz * qz = 1)
    (hc : cw * cw + cx * cx + cy * cy + cz * cz = 1) :
    ∃ d v : ℝ, 0 ≤ v ∧ d * d + v = 1 ∧ d = qw * cw + qx * cx + qy * cy + qz * cz ∧
      ((⟨qw, qx, qy, qz⟩ : quaternion ℝ).mul
          ⟨1, 4 * d * (qw * cx - cw * qx - (qy * cz - qz * cy)) * (2 * s) / 2,
            4 * d * (qw * cy - cw * qy - (qz * cx - qx * cz)) * (2 * s) / 2,
            4 * d * (qw * cz - cw * qz - (qx * cy - qy * cx)) * (2 * s) / 2⟩).squaredNorm =
        1 + s * s * (16 * (d * d) * v) ∧
      ((⟨qw, qx, qy, qz⟩ : quaternion ℝ).mul
          ⟨1, 4 * d * (qw * cx - cw * qx - (qy * cz - qz * cy)) * (2 * s) / 2,
            4 * d * (qw * cy - cw * qy - (qz * cx - qx * cz)) * (2 * s) / 2,
            4 * d * (qw * cz - cw * qz - (qx * cy - qy * cx)) * (2 * s) / 2⟩).w * cw +
        ((⟨qw, qx, qy, qz⟩ : quaternion ℝ).mul
          ⟨1, 4 * d * (qw * cx - cw * qx - (qy * cz - qz * cy)) * (2 * s) / 2,
            4 * d * (qw * cy - cw * qy - (qz * cx - qx * cz)) * (2 * s) / 2,
            4 * d * (qw * cz - cw * qz - (qx * cy - qy * cx)) * (2 * s) / 2⟩).x * cx +
        ((⟨qw, qx, qy, qz⟩ : quaternion ℝ).mul
          ⟨1, 4 * d * (qw * cx - cw * qx - (qy * cz - qz * cy)) * (2 * s) / 2,
            4 * d * (qw * cy - cw * qy - (qz * cx - qx * cz)) * (2 * s) / 2,
            4 * d * (qw * cz - cw * qz - (qx * cy - qy * cx)) * (2 * s) / 2⟩).y * cy +
        ((⟨qw, qx, qy, qz⟩ : quaternion ℝ).mul
          ⟨1, 4 * d * (qw * cx - cw * qx - (qy * cz - qz * cy)) * (2 * s) / 2,
            4 * d * (qw * cy - cw * qy - (qz * cx - qx * cz)) * (2 * s) / 2,
            4 * d * (qw * cz - cw * qz - (qx * cy - qy * cx)) * (2 * s) / 2⟩).z * cz =
        d + s * (4 * d * v) := by
  refine ⟨qw * cw + qx * cx + qy * cy + qz * cz,
    (qw * cx - cw * qx - (qy * cz - qz * cy)) ^ 2 + (qw * cy - cw * qy - (qz * cx - qx * cz)) ^ 2 +
      (qw * cz - cw * qz - (qx * cy - qy * cx)) ^ 2, by positivity, ?_, rfl, ?_, ?_⟩
  · linear_combination (cw * cw + cx * cx + cy * cy + cz * cz) * hq + hc
  · rw [quaternion.squaredNorm_mul]
    simp only [quaternion.squaredNorm]
    rw [hq]
    ring
  · simp only [quaternion.mul]
    ring

/-- C15: from a unit orientation, with a non-degenerate sensor pair passing
the gate, zero angular velocity and `0 ≤ dt ≤ 1`, one default step does not
decrease the alignment `Σ dot(C.row i, R.row i)` between the orientation
frame `R` and the compass frame `C`. -/
theorem drift_correction_alignment (q : quaternion ℝ) (dt : ℝ) (a m : vector ℝ)
    (hq : q.norm = 1) (hnd : NonDegenerate a m) (hgate : |a.norm - 1| ≤ 3 / 10)
    (hdt0 : 0 ≤ dt) (hdt1 : dt ≤ 1) :
    alignment (rotationFromCompass a m) q.toRotationMatrix ≤
      alignment (rotationFromCompass a m) (fuse_default q dt vector.zero a m).toRotationMatrix := by
  have hq2 : q.squaredNorm = 1 := quaternion.squaredNorm_of_norm hq
  obtain ⟨c, hC, hc2⟩ : ∃ c : quaternion ℝ,
      c.toRotationMatrix = rotationFromCompass a m ∧ c.squaredNorm = 1 :=
    ⟨_, ofMatrix_proper _ (rotationFromCompass_proper hnd.2.2)⟩
  have hstep : fuse_default q dt vector.zero a m =
      rotate q
        ⟨4 * (q.w * c.w + q.x * c.x + q.y * c.y + q.z * c.z) *
            (q.w * c.x - c.w * q.x - (q.y * c.z - q.z * c.y)),
          4 * (q.w * c.w + q.x * c.x + q.y * c.y + q.z * c.z) *
            (q.w * c.y - c.w * q.y - (q.z * c.x - q.x * c.z)),
          4 * (q.w * c.w + q.x * c.x + q.y * c.y + q.z * c.z) *
            (q.w * c.z - c.w * q.z - (q.x * c.y - q.y * c.x))⟩ dt := by
    simp only [fuse_default, fuse_default_correction, if_pos hgate, vector.scale_one,
      vector.zero_add_left]
    rw [← hC, correction_unit hq2 hc2]
  rw [hstep, ← hC]
  obtain ⟨qw, qx, qy, qz⟩ := q
  obtain ⟨cw, cx, cy, cz⟩ := c
  have hq3 : qw * qw + qx * qx + qy * qy + qz * qz = 1 := hq2
  have hc3 : cw * cw + cx * cx + cy * cy + cz * cz = 1 := hc2
  obtain ⟨d, v, hv, hdv, hd, hN, hE⟩ := step_dot qw qx qy qz cw cx cy cz (dt / 2) hq3 hc3
  have h2s : 2 * (dt / 2) = dt := by ring
  rw [h2s] at hN hE
  simp only [← hd]
  have hpos : 0 < 1 + dt / 2 * (dt / 2) * (16 * (d * d) * v) := by
    have := mul_nonneg (mul_self_nonneg (dt / 2))
      (mul_nonneg (mul_nonneg (by norm_num : (0 : ℝ) ≤ 16) (mul_self_nonneg d)) hv)
    linarith
  have hunit := quaternion.squaredNorm_normalize (hN ▸ hpos)
  simp only [rotate]
  rw [alignment_unit hq2 hc2, alignment_unit hunit hc2]
  simp only [quaternion.normalize, ← hd]
  generalize (⟨qw, qx, qy, qz⟩ : quaternion ℝ).mul _ = P at hN hE hunit
  have hNN := quaternion.qnorm_mul_self P
  rw [hN] at hNN
  have hsum : P.w / P.norm * cw + P.x / P.norm * cx + P.y / P.norm * cy + P.z / P.norm * cz =
      (d + dt / 2 * (4 * d * v)) / P.norm := by
    rw [← hE]; ring
  have hsq : ((d + dt / 2 * (4 * d * v)) / P.norm) ^ 2 =
      (d + dt / 2 * (4 * d * v)) ^ 2 / (1 + dt / 2 * (dt / 2) * (16 * (d * d) * v)) := by
    rw [div_pow, ← hNN, sq P.norm]
  rw [hsum, hsq]
  have hgain := alignment_gain d v (dt / 2) hv hdv (by linarith) (by linarith)
  have hdiv : d ^ 2 ≤
      (d + dt / 2 * (4 * d * v)) ^ 2 / (1 + dt / 2 * (dt / 2) * (16 * (d * d) * v)) := by
    rw [le_div_iff₀ hpos]
    linarith
  linarith

theorem unit_x_quaternion_norm : (⟨0, 1, 0, 0⟩ : quaternion ℝ).norm = 1 := by
  simp [quaternion.norm, quaternion.squaredNorm]

/-- A board turned upside down about its x axis, under a level compass
frame, with a 20 ms step. -/
theorem drift_correction_alignment_witness :
    alignment (rotationFromCompass (⟨0, 0, 1⟩ : vector ℝ) ⟨0, 1, 0⟩)
        (⟨0, 1, 0, 0⟩ : quaternion ℝ).toRotationMatrix ≤
      alignment (rotationFromCompass (⟨0, 0, 1⟩ : vector ℝ) ⟨0, 1, 0⟩)
        (fuse_default (⟨0, 1, 0, 0⟩ : quaternion ℝ) (1 / 50) vector.zero ⟨0, 0, 1⟩
          ⟨0, 1, 0⟩).toRotationMatrix :=
  drift_correction_alignment ⟨0, 1, 0, 0⟩ (1 / 50) ⟨0, 0, 1⟩ ⟨0, 1, 0⟩ unit_x_quaternion_norm
    nonDegenerate_level_north (by rw [unit_z_norm]; norm_num) (by norm_num) (by norm_num)

/-! ## Pacing -/

/-- Two in-range readings subtract without wrapping. -/
theorem wrap32_sub_of_range {x y : Int} (hx : 0 ≤ x ∧ x < 2 ^ 31) (hy : 0 ≤ y ∧ y < 2 ^ 31) :
    wrap32 (x - y) = x - y := by
  apply wrap32_of_range
  · have := hx.1; have := hy.2; norm_num at *; omega
  · have := hx.2; have := hy.1; norm_num at *; omega

/-- The pacing loop is left at the first reading that is not below
`start + 20` (as the program computes the difference). -/
theorem pace_exit (clock : Nat → Int) (start : Int) :
    ∀ (fuel tick sleeps : Nat), pace clock start fuel tick = some sleeps →
      20 ≤ wrap32 (clock (tick + sleeps) - start) ∧
      ∀ k, k < sleeps → wrap32 (clock (tick + k) - start) < 20 := by
  intro fuel
  induction fuel with
  | zero => intro tick sleeps h; simp [pace] at h
  | succ n ih =>
    intro tick sleeps h
    unfold pace at h
    split_ifs at h with hc
    · cases hp : pace clock start n (tick + 1) with
      | none => simp [hp] at h
      | some s =>
        simp only [hp, Option.map_some', Option.some.injEq] at h
        subst h
        obtain ⟨h1, h2⟩ := ih (tick + 1) s hp
        refine ⟨?_, ?_⟩
        · rw [show tick + (s + 1) = tick + 1 + s by omega]; exact h1
        · intro k hk
          rcases Nat.eq_zero_or_pos k with rfl | hpos
          · simpa using hc
          · have := h2 (k - 1) (by omega)
            rwa [show tick + 1 + (k - 1) = tick + k by omega] at this
    · simp only [Option.some.injEq] at h
      subst h
      exact ⟨by simpa using not_lt.mp hc, fun k hk => absurd hk (Nat.not_lt_zero k)⟩

theorem pace_no_wait (clock : Nat → Int) (start : Int) (fuel tick : Nat)
    (h : 20 ≤ wrap32 (clock tick - start)) : pace clock start (fuel + 1) tick = some 0 := by
  unfold pace
  rw [if_neg (not_lt.mpr h)]

theorem pace_terminates (clock : Nat → Int) (start : Int) :
    ∀ (k tick : Nat), 20 ≤ wrap32 (clock (tick + k) - start) →
      ∃ sleeps, pace clock start (k + 1) tick = some sleeps := by
  intro k
  induction k with
  | zero =>
    intro tick h
    exact ⟨0, pace_no_wait clock start 0 tick (by simpa using h)⟩
  | succ n ih =>
    intro tick h
    unfold pace
    split_ifs with hc
    · obtain ⟨s, hs⟩ := ih (tick + 1) (by rwa [show tick + 1 + n = tick + (n + 1) by omega])
      exact ⟨s + 1, by rw [hs]; rfl⟩
    · exact ⟨0, rfl⟩

/-- The `start` an iteration leaves behind is the reading it took first. -/
theorem ahrs_iteration_start (fuse_func : fuse_function ℝ) (clock : Nat → Int)
    (imu : Nat → Sample ℝ) (fuel : Nat) (st : AhrsState ℝ) :
    (ahrs_iteration fuse_func clock imu fuel st).state.start = clock st.tick := by
  by_cases hdt : (ahrs_dt (clock st.tick) st.start : ℝ) < 0
  · simp only [ahrs_iteration, if_pos hdt]
  · simp only [ahrs_iteration, if_neg hdt]
    cases pace clock (clock st.tick) fuel (st.tick + 1) <;> rfl

/-- An iteration that completes leaves the pacing loop at a reading at least
20 ms after its start; the next `millis()` call is the one after it. -/
theorem ahrs_iteration_running (fuse_func : fuse_function ℝ) (clock : Nat → Int)
    (imu : Nat → Sample ℝ) (fuel : Nat) (st : AhrsState ℝ)
    (h : (ahrs_iteration fuse_func clock imu fuel st).status = Status.running) :
    ∃ sleeps, pace clock (clock st.tick) fuel (st.tick + 1) = some sleeps ∧
      (ahrs_iteration fuse_func clock imu fuel st).state.tick = st.tick + 1 + sleeps + 1 := by
  by_cases hdt : (ahrs_dt (clock st.tick) st.start : ℝ) < 0
  · simp [ahrs_iteration, if_pos hdt] at h
  · simp only [ahrs_iteration, if_neg hdt] at h ⊢
    cases hp : pace clock (clock st.tick) fuel (st.tick + 1) with
    | none => simp [hp] at h
    | some s => exact ⟨s, rfl, rfl⟩

/-- C16: for a non-decreasing clock whose readings stay in `[0, 2^31)` (no
wrap), the pacing loop is left only at a reading at least 20 ms after
`start`, makes no `usleep` call when its first reading is already that late,
and is left as soon as such a reading comes (with enough fuel it returns).
Hence when an iteration completes, the next iteration starts at least 20 ms
later and measures `dt ≥ 0.020`. -/
theorem pacing_floor (fuse_func : fuse_function ℝ) (clock : Nat → Int) (imu : Nat → Sample ℝ)
    (hmono : Monotone clock) (hrange : ∀ k, 0 ≤ clock k ∧ clock k < 2 ^ 31) :
    (∀ (s0 fuel tick sleeps : Nat), pace clock (clock s0) fuel tick = some sleeps →
      20 ≤ clock (tick + sleeps) - clock s0 ∧
      ∀ k, k < sleeps → clock (tick + k) - clock s0 < 20) ∧
    (∀ (s0 fuel tick : Nat), 20 ≤ clock tick - clock s0 →
      pace clock (clock s0) (fuel + 1) tick = some 0) ∧
    (∀ (s0 k tick : Nat), 20 ≤ clock (tick + k) - clock s0 →
      ∃ sleeps, pace clock (clock s0) (k + 1) tick = some sleeps) ∧
    (∀ (fuel fuel2 : Nat) (st : AhrsState ℝ),
      (ahrs_iteration fuse_func clock imu fuel st).status = Status.running →
      20 ≤ (ahrs_iteration fuse_func clock imu fuel2
              (ahrs_iteration fuse_func clock imu fuel st).state).state.start -
            (ahrs_iteration fuse_func clock imu fuel st).state.start ∧
      (20 / 1000 : ℝ) ≤
        ahrs_dt (clock (ahrs_iteration fuse_func clock imu fuel st).state.tick)
          (ahrs_iteration fuse_func clock imu fuel st).state.start) := by
  have hw : ∀ i j, wrap32 (clock i - clock j) = clock i - clock j :=
    fun i j => wrap32_sub_of_range (hrange i) (hrange j)
  refine ⟨?_, ?_, ?_, ?_⟩
  · intro s0 fuel tick sleeps h
    obtain ⟨h1, h2⟩ := pace_exit clock (clock s0) fuel tick sleeps h
    rw [hw] at h1
    exact ⟨h1, fun k hk => by have := h2 k hk; rwa [hw] at this⟩
  · intro s0 fuel tick h
    exact pace_no_wait clock (clock s0) fuel tick (by rwa [hw])
  · intro s0 k tick h
    exact pace_terminates clock (clock s0) k tick (by rwa [hw])
  · intro fuel fuel2 st h
    obtain ⟨s, hp, ht⟩ := ahrs_iteration_running fuse_func clock imu fuel st h
    obtain ⟨h1, -⟩ := pace_exit clock (clock st.tick) fuel (st.tick + 1) s hp
    rw [hw] at h1
    have hnext : clock (st.tick + 1 + s) ≤ clock (st.tick + 1 + s + 1) :=
      hmono (Nat.le_succ _)
    have hd : 20 ≤ clock (st.tick + 1 + s + 1) - clock st.tick := by linarith
    rw [ahrs_iteration_start, ahrs_iteration_start, ht]
    refine ⟨hd, ?_⟩
    simp only [ahrs_dt, hw]
    have hr : (20 : ℝ) ≤ ((clock (st.tick + 1 + s + 1) - clock st.tick : Int) : ℝ) := by
      exact_mod_cast hd
    linarith

/-- A clock that advances 7 ms per reading from 100 ms and stops at 1000 ms:
after a start at the reading 100, the reading 121 leaves the pacing loop
without a wait. -/
theorem pacing_floor_witness :
    pace (fun k => min (100 + 7 * (k : Int)) 1000) 100 1 3 = some 0 := by
  have hmono : Monotone (fun k : Nat => min (100 + 7 * (k : Int)) 1000) := by
    intro i j hij
    have h : (i : Int) ≤ j := by exact_mod_cast hij
    exact min_le_min (by linarith) le_rfl
  have hrange : ∀ k : Nat, 0 ≤ min (100 + 7 * (k : Int)) 1000 ∧
      min (100 + 7 * (k : Int)) 1000 < 2 ^ 31 := by
    intro k
    have hk : (0 : Int) ≤ k := Int.ofNat_nonneg k
    exact ⟨le_min (by linarith) (by norm_num), lt_of_le_of_lt (min_le_right _ _) (by norm_num)⟩
  have h := (pacing_floor fuse_gyro_only (fun k => min (100 + 7 * (k : Int)) 1000)
    (fun _ => ⟨⟨0, 0, 0⟩, ⟨0, 0, 1⟩, ⟨0, 1, 0⟩⟩) hmono hrange).2.1 0 0 3 (by norm_num)
  simpa using h

/-! ## The compass frame is right-handed -/

/-- C17: for a non-degenerate sensor pair `rotationFromCompass` is a proper
rotation: its determinant is `+1` (so not `−1`), `row 0 × row 1 = row 2`, and
the quaternion converted from it has unit magnitude and converts back to the
same matrix. -/
theorem rotationFromCompass_right_handed (a m : vector ℝ) (hnd : NonDegenerate a m) :
    (rotationFromCompass a m).determinant = 1 ∧
    (rotationFromCompass a m).determinant ≠ -1 ∧
    ((rotationFromCompass a m).row 0).cross ((rotationFromCompass a m).row 1) =
      (rotationFromCompass a m).row 2 ∧
    (quaternion.ofMatrix (rotationFromCompass a m)).norm = 1 ∧
    (quaternion.ofMatrix (rotationFromCompass a m)).toRotationMatrix =
      rotationFromCompass a m := by
  have hp := rotationFromCompass_proper hnd.2.2
  have hq := ofMatrix_proper _ hp
  have hdet : (rotationFromCompass a m).determinant = 1 := by
    generalize rotationFromCompass a m = C at hp
    obtain ⟨⟨a, b, c⟩, ⟨d, e, f⟩, ⟨g, h, i⟩⟩ := C
    simp only [matrix.IsProperRotation, vector.dot, vector.cross, vector.mk.injEq] at hp
    obtain ⟨N0, N1, -, O01, -, -, X1, X2, X3⟩ := hp
    obtain ⟨⟨A1, A2, A3⟩, -⟩ := so3_cofactors N0 N1 O01 X1 X2 X3
    simp only [matrix.determinant, matrix.row, vector.dot, vector.cross]
    rw [A1, A2, A3]
    exact N0
  refine ⟨hdet, ?_, hp.2.2.2.2.2.2, ?_, hq.1⟩
  · rw [hdet]; norm_num
  · rw [quaternion.norm, sqrt_real, hq.2, Real.sqrt_one]

/-- Level, east-facing board. -/
theorem rotationFromCompass_right_handed_witness :
    (rotationFromCompass (⟨0, 0, 1⟩ : vector ℝ) ⟨0, 1, 0⟩).determinant = 1 :=
  (rotationFromCompass_right_handed ⟨0, 0, 1⟩ ⟨0, 1, 0⟩ nonDegenerate_level_north).1

end MinIMU9
